import Mathlib

/-!
# Verification of the Auto-Deck-ID-Manager ordinal-label core

Shallow embedding of the repository's label-management core
(src/deck_id_manager.py and src/browser_id_manager.py).

Modelling conventions:
* A Python string is modelled as a `List Char` (`Str`), compared by code
  points exactly as Python compares strings; the model is exact on ASCII
  data (the character classes `isdigit` and `int()`-whitespace are taken
  in their ASCII meaning).
* A note (record) is identified with the card that carries it: the source
  resolves each card to its note and each note to one deck, and every card
  id occurring in a deck listing is distinct, so cards and notes are both
  modelled by a single `Nat` identifier.
* The Anki collection is split into an immutable environment `Env`
  (deck names, deck membership, note-to-deck resolution, the collection's
  note listing) and a mutable store `St` holding each note's optional
  "Deck ID" field together with the log of `update_note` persistence calls.
* Exceptions (KeyError on a missing field, ValueError from `int`,
  ValueError from `list.index`) are modelled with `Option`/`Except`;
  the `try/except` in `reorder_deck_ids` absorbs them, which the embedding
  reproduces by returning the unchanged store.
-/

/-- A Python string, as its list of characters. -/
abbrev Str := List Char

/-! ## Python string primitives used by the source -/

/-- Split a string at its *last* `@`: `some (before, after)`, or `none`
when the string has no `@`.  This is the common core of Python's
`s.rsplit('@', 1)` and `s.split('@')[-1]` as used in the source. -/
def splitLast : Str → Option (Str × Str)
  | [] => none
  | c :: cs =>
    match splitLast cs with
    | some (p, q) => some (c :: p, q)
    | none => if c = '@' then some ([], cs) else none

/-- Python `s.rsplit('@', 1)[0]`: everything before the last `@`,
or the whole string when there is no `@`. -/
def beforeLastAt (s : Str) : Str := (splitLast s).elim s Prod.fst

/-- Python `s.split('@')[-1]` (equally `s.rsplit('@', 1)[-1]`): everything
after the last `@`, or the whole string when there is no `@`. -/
def afterLastAt (s : Str) : Str := (splitLast s).elim s Prod.snd

/-- The numeric value of a digit character. -/
def charVal (c : Char) : Nat := c.toNat - 48

/-- Python `int(s)` applied to a string of decimal digits: the usual
base-10 value (the source only applies it after an `isdigit` check, or
behind the more permissive `pyInt` below). -/
def digitsVal (s : Str) : Nat := s.foldl (fun a c => a * 10 + charVal c) 0

/-- Python's ASCII decimal-digit class (the digits accepted by
`str.isdigit` and by `int()` on ASCII input). -/
def isDigitB (c : Char) : Bool := 48 ≤ c.toNat && c.toNat ≤ 57

/-- Python `s.isdigit()` (ASCII): nonempty and all decimal digits. -/
def isDigits (s : Str) : Bool := !s.isEmpty && s.all isDigitB

/-- ASCII whitespace accepted (and stripped) by Python's `int()`. -/
def isPyWs (c : Char) : Bool :=
  c == ' ' || c == '\t' || c == '\n' || c == '\r' || c == '\x0B' || c == '\x0C'

/-- Strip `int()`-whitespace from both ends. -/
def stripWs (s : Str) : Str :=
  ((s.dropWhile isPyWs).reverse.dropWhile isPyWs).reverse

/-- Digit-run parser for Python's `int()`: after a leading digit, further
digits may be separated by single underscores (`1_0` is accepted,
`_1`, `1_`, `1__0` are not). -/
def pyDigitsGo (acc : Nat) : Str → Option Nat
  | [] => some acc
  | c :: rest =>
    if isDigitB c then pyDigitsGo (acc * 10 + charVal c) rest
    else if c = '_' then
      match rest with
      | [] => none
      | d :: rest' =>
        if isDigitB d then pyDigitsGo (acc * 10 + charVal d) rest' else none
    else none

/-- Nonempty digit run (with underscore separators) for `int()`. -/
def pyDigits : Str → Option Nat
  | [] => none
  | c :: rest => if isDigitB c then pyDigitsGo (charVal c) rest else none

/-- Python `int(s)`: optional surrounding whitespace, optional single
sign, then a nonempty digit run; `none` models the `ValueError`. -/
def pyInt (s : Str) : Option Int :=
  match stripWs s with
  | '+' :: r => (pyDigits r).map Int.ofNat
  | '-' :: r => (pyDigits r).map (fun n => -(n : Int))
  | t => (pyDigits t).map Int.ofNat

/-- The character of a decimal digit. -/
def digitChar (d : Nat) : Char := Char.ofNat (48 + d)

/-- Decimal digits, least significant first, by fuel recursion (the fuel
only needs to dominate the digit count; `natDigitsRev` feeds it `n`). -/
def natDigitsRevAux : Nat → Nat → Str
  | 0, _ => []
  | fuel + 1, n => if n = 0 then [] else digitChar (n % 10) :: natDigitsRevAux fuel (n / 10)

/-- Decimal digits of `n`, least significant first (`[]` for `0`). -/
def natDigitsRev (n : Nat) : Str := natDigitsRevAux n n

/-- Python `str(n)` for a nonnegative integer. -/
def pyStr (n : Nat) : Str := if n = 0 then ['0'] else (natDigitsRev n).reverse

/-- Python `s.zfill(w)` for the unsigned strings produced by `str(n)`:
left-pad with `'0'` to width `w` (strings already at least that wide are
returned unchanged). -/
def zfill (w : Nat) (s : Str) : Str := List.replicate (w - s.length) '0' ++ s

/-- Python string comparison (`<`), code point lexicographic. -/
def strLtB : Str → Str → Bool
  | [], [] => false
  | [], _ :: _ => true
  | _ :: _, [] => false
  | a :: as, b :: bs => if a < b then true else if b < a then false else strLtB as bs

/-- Python string comparison (`<=`), code point lexicographic. -/
def strLeB (a b : Str) : Bool := !strLtB b a

/-! ## The data model -/

/-- The immutable collaborator data: deck display names
(`mw.col.decks.get(deck_id)['name']`), per-deck card listings
(`mw.col.decks.cids(deck_id, children=False)`), the deck a note's first
card currently sits in (`note.cards()[0].current_deck_id()`), and the
whole collection (`mw.col.find_notes("")`). -/
structure Env where
  deckName : Nat → Str
  deckCids : Nat → List Nat
  noteDeck : Nat → Nat
  allNotes : List Nat

/-- The mutable store: each note's optional "Deck ID" field (`none` when
the note type lacks the field), plus the log of `mw.col.update_note`
calls, each recorded as (note id, persisted field value). -/
structure St where
  label : Nat → Option Str
  writes : List (Nat × Str)

/-- `mw.col.update_note(note)` after `note['Deck ID'] = v`: the stored
field changes and the write is persisted (logged). -/
def updateNote (st : St) (n : Nat) (v : Str) : St :=
  { label := fun m => if m = n then some v else st.label m
    writes := st.writes ++ [(n, v)] }

/-! ## OrdinalCodec (label parsing and formatting as the source does it) -/

/-- Label parsing as performed by the source: split at the last `@` and
accept an all-digits suffix (`get_max_deck_index` lines 90-93); `none`
covers both `Malformed` shapes (no `@`, or a non-digit suffix). -/
def parseLabel (s : Str) : Option (Str × Nat) :=
  match splitLast s with
  | none => none
  | some (p, d) => if isDigits d then some (p, digitsVal d) else none

/-- Label formatting as performed by the source:
`f"{prefix}@{str(i).zfill(5)}"`. -/
def formatLabel (p : Str) (i : Nat) : Str := p ++ '@' :: zfill 5 (pyStr i)

/-! ## deck_id_manager.reorder_deck_ids (the ReindexSweep) -/

/-- The sort key of one card inside `reorder_deck_ids`:
`int(mw.col.get_card(cid).note()['Deck ID'].split('@')[-1])`.
`none` models the KeyError (field absent) or ValueError (`int` fails). -/
def sortKeyOfLabel? (lab : Option Str) : Option Int :=
  lab.bind (fun s => pyInt (afterLastAt s))

/-- `sorted(all_cards, key=...)` computes every key (left to right) before
reordering anything; the first failing key raises out of `sorted`.
`none` models that raise, `some` pairs every card with its key. -/
def reorderKeys (st : St) : List Nat → Option (List (Nat × Int))
  | [] => some []
  | cid :: rest =>
    match sortKeyOfLabel? (st.label cid) with
    | none => none
    | some k => (reorderKeys st rest).map (fun l => (cid, k) :: l)

/-- The label written for position `i` of the sweep:
`f"{prefix}@{str(i).zfill(5)}"` with `prefix = field.rsplit('@', 1)[0]`
(lines 65-66). -/
def sweepLabel (s : Str) (i : Nat) : Str := beforeLastAt s ++ '@' :: zfill 5 (pyStr i)

/-- One iteration of the sweep's write loop (lines 59-68): re-read the
note; when its field is present and nonempty (truthy) rewrite it to
`sweepLabel` of its current value and persist, else do nothing. -/
def reorderStep (st : St) (i : Nat) (cid : Nat) : St :=
  match st.label cid with
  | some s => if s.isEmpty then st else updateNote st cid (sweepLabel s i)
  | none => st

/-- The write loop of `reorder_deck_ids` (lines 58-69): walk the sorted
cards with `enumerate(..., start=1)`. -/
def reorderLoop : St → Nat → List Nat → St
  | st, _, [] => st
  | st, i, cid :: rest => reorderLoop (reorderStep st i cid) (i + 1) rest

/-- The comparison `sorted` uses on the keyed cards: by the `int` key. -/
def intKeyLe (a b : Nat × Int) : Prop := a.2 ≤ b.2

instance : DecidableRel intKeyLe := fun a b => Int.decLe a.2 b.2

instance : IsTotal (Nat × Int) intKeyLe := ⟨fun a b => Int.le_total a.2 b.2⟩

instance : IsTrans (Nat × Int) intKeyLe := ⟨fun _ _ _ => Int.le_trans⟩

/-- `reorder_deck_ids(deck_id)` (deck_id_manager.py lines 45-72): sort the
deck's cards by the numeric suffix of their current label and renumber
them 1..N; any exception while sorting is caught and absorbed, leaving
the store untouched. -/
def reorder_deck_ids (env : Env) (deck : Nat) (st : St) : St :=
  match reorderKeys st (env.deckCids deck) with
  | none => st
  | some keyed =>
    let sorted := List.insertionSort intKeyLe keyed
    reorderLoop st 1 (sorted.map Prod.fst)

/-! ## deck_id_manager.get_max_deck_index and add_deck_index_field -/

/-- The scanning half of `get_max_deck_index` (lines 80-100): fold over
the deck's cards, counting a card only when its field is present, truthy,
contains `@`, and has an all-digits last segment. -/
def scanMaxIndex (env : Env) (deck : Nat) (st : St) : Nat :=
  (env.deckCids deck).foldl
    (fun mx cid =>
      match st.label cid with
      | some s =>
        if !s.isEmpty && '@' ∈ s then
          (if isDigits (afterLastAt s) then max mx (digitsVal (afterLastAt s)) else mx)
        else mx
      | none => mx)
    0

/-- `get_max_deck_index(deck_id)` (lines 75-100): reorder first, then
scan the (already reordered) deck for the largest valid index. -/
def get_max_deck_index (env : Env) (deck : Nat) (st : St) : St × Nat :=
  let st1 := reorder_deck_ids env deck st
  (st1, scanMaxIndex env deck st1)

/-- `add_deck_index_field(note, deck_id)` (lines 103-114): compute the
next index from `get_max_deck_index` and format the new label onto the
in-memory note (this variant does not persist the new note itself);
returns the mutated store (from the embedded sweep) and the label
assigned to the new note. -/
def add_deck_index_field (env : Env) (deck : Nat) (st : St) : St × Str :=
  let name := env.deckName deck
  let r := get_max_deck_index env deck st
  (r.1, name ++ '@' :: zfill 5 (pyStr (r.2 + 1)))

/-! ## deck_id_manager.verify_and_add_deck_ids (the ReconciliationPass) -/

/-- The per-deck counter dictionary `deck_counters`. -/
abbrev Counters := List (Str × Nat)

/-- Python `deck_counters[name]` lookup (`None` when the key is absent). -/
def getCount (cs : Counters) (w : Str) : Option Nat :=
  (cs.find? (fun p => p.1 == w)).map Prod.snd

/-- Python `deck_counters[name] = k` assignment. -/
def setCount : Counters → Str → Nat → Counters
  | [], w, k => [(w, k)]
  | p :: rest, w, k => if p.1 == w then (w, k) :: rest else p :: setCount rest w k

/-- The expected label computed by the reconciliation pass:
`f"{deck_name}@{str(counter).zfill(5)}"`. -/
def expectedLabel (w : Str) (c : Nat) : Str := w ++ '@' :: zfill 5 (pyStr c)

/-- The loop of `verify_and_add_deck_ids` (lines 141-163): walk the
sorted notes; skip a note without the field; otherwise bump the counter
of the note's deck name and rewrite (and persist) the field when it
differs from the expected label. -/
def verifyLoop (env : Env) : List Nat → Counters → St → Counters × St
  | [], cs, st => (cs, st)
  | n :: rest, cs, st =>
    match st.label n with
    | none => verifyLoop env rest cs st
    | some field =>
      let w := env.deckName (env.noteDeck n)
      let c := match getCount cs w with
        | none => 1
        | some k => k + 1
      let cs' := setCount cs w c
      let exp := expectedLabel w c
      if field = exp then verifyLoop env rest cs' st
      else verifyLoop env rest cs' (updateNote st n exp)

/-- The comparison the reconciliation sort uses: by current field value
(Python string comparison). -/
def noteKeyLe (key : Nat → Str) (a b : Nat) : Prop := strLeB (key a) (key b) = true

instance (key : Nat → Str) : DecidableRel (noteKeyLe key) :=
  fun a b => instDecidableEqBool (strLeB (key a) (key b)) true

/-- `verify_and_add_deck_ids()` (lines 132-165): sort all notes by their
current field value (absent field sorts as `''`, Python's stable sort),
then run the counter loop. -/
def verify_and_add_deck_ids (env : Env) (st : St) : St :=
  let key : Nat → Str := fun n => (st.label n).getD []
  let sorted := List.insertionSort (noteKeyLe key) env.allNotes
  (verifyLoop env sorted [] st).2

/-! ## browser_id_manager.update_deck_ids_after_swap (the PairSwapper) -/

/-- `update_deck_ids_after_swap(card_a, card_b)` (browser_id_manager.py
lines 78-104).  `note["Deck ID"]` raises KeyError when the field is
absent (modelled by `.error`); otherwise compare the parts before the
last `@` and either refuse (`false`, nothing written) or exchange the
suffixes, persisting note a then note b. -/
def update_deck_ids_after_swap (a b : Nat) (st : St) : Except Unit (St × Bool) :=
  match st.label a with
  | none => .error ()
  | some la =>
    match st.label b with
    | none => .error ()
    | some lb =>
      let pa := beforeLastAt la
      let pb := beforeLastAt lb
      if pa ≠ pb then .ok (st, false)
      else
        let sb := afterLastAt lb
        let sa := afterLastAt la
        let st1 := updateNote st a (pa ++ '@' :: sb)
        let st2 := updateNote st1 b (pb ++ '@' :: sa)
        .ok (st2, true)

/-! ## browser_id_manager.move_card_up / move_card_down (OrderedView) -/

/-- The in-place pair swap on the cached visible list:
`lst[i], lst[j] = lst[j], lst[i]`. -/
def listSwap (l : List Nat) (i j : Nat) : List Nat :=
  (l.set i (l.getD j 0)).set j (l.getD i 0)

/-- `move_card_up(browser, selected_card_id, visible_card_ids)` (lines
106-119): `visible_card_ids.index(...)` raises ValueError when the id is
absent (modelled by `.error`); at the top edge return `False` untouched;
otherwise attempt the swap and on success also swap the cached ids.
Returns (result, updated visible list, updated store). -/
def move_card_up (sel : Nat) (vis : List Nat) (st : St) :
    Except Unit (Bool × List Nat × St) :=
  match vis.findIdx? (fun x => x == sel) with
  | none => .error ()
  | some idx =>
    if 0 < idx then
      match update_deck_ids_after_swap sel (vis.getD (idx - 1) 0) st with
      | .error e => .error e
      | .ok (st', true) => .ok (true, listSwap vis idx (idx - 1), st')
      | .ok (st', false) => .ok (false, vis, st')
    else .ok (false, vis, st)

/-- `move_card_down(browser, selected_card_id, visible_card_ids)` (lines
121-134), symmetric to `move_card_up` with the neighbour below. -/
def move_card_down (sel : Nat) (vis : List Nat) (st : St) :
    Except Unit (Bool × List Nat × St) :=
  match vis.findIdx? (fun x => x == sel) with
  | none => .error ()
  | some idx =>
    if idx < vis.length - 1 then
      match update_deck_ids_after_swap sel (vis.getD (idx + 1) 0) st with
      | .error e => .error e
      | .ok (st', true) => .ok (true, listSwap vis idx (idx + 1), st')
      | .ok (st', false) => .ok (false, vis, st')
    else .ok (false, vis, st)

/-! ## Character-level facts -/

theorem char_lt_iff {c d : Char} : c < d ↔ c.toNat < d.toNat := Iff.rfl

theorem char_le_iff {c d : Char} : c ≤ d ↔ c.toNat ≤ d.toNat := Iff.rfl

theorem char_eq_iff {c d : Char} : c = d ↔ c.toNat = d.toNat :=
  ⟨congrArg _, fun h => Char.ext (UInt32.toNat.inj h)⟩

theorem isDigitB_bounds {c : Char} (h : isDigitB c = true) :
    48 ≤ c.toNat ∧ c.toNat ≤ 57 := by
  simpa [isDigitB] using h

theorem isDigitB_digitChar {d : Nat} (hd : d ≤ 9) : isDigitB (digitChar d) = true := by
  interval_cases d <;> decide

theorem charVal_digitChar {d : Nat} (hd : d ≤ 9) : charVal (digitChar d) = d := by
  interval_cases d <;> decide

theorem charVal_le_of_isDigitB {c : Char} (h : isDigitB c = true) : charVal c ≤ 9 := by
  have := isDigitB_bounds h
  unfold charVal
  omega

/-- A digit character differs from any non-digit character. -/
theorem isDigitB_ne {c d : Char} (h : isDigitB c = true) (hd : isDigitB d = false) :
    c ≠ d := fun he => by rw [he, hd] at h; cases h

theorem isDigitB_ne_at {c : Char} (h : isDigitB c = true) : c ≠ '@' :=
  isDigitB_ne h (by decide)

theorem isDigitB_not_ws {c : Char} (h : isDigitB c = true) : isPyWs c = false := by
  unfold isPyWs
  simp only [Bool.or_eq_false_iff, beq_eq_false_iff_ne]
  exact ⟨⟨⟨⟨⟨isDigitB_ne h (by decide), isDigitB_ne h (by decide)⟩,
    isDigitB_ne h (by decide)⟩, isDigitB_ne h (by decide)⟩,
    isDigitB_ne h (by decide)⟩, isDigitB_ne h (by decide)⟩

theorem isDigitB_ne_plus {c : Char} (h : isDigitB c = true) : c ≠ '+' :=
  isDigitB_ne h (by decide)

theorem isDigitB_ne_minus {c : Char} (h : isDigitB c = true) : c ≠ '-' :=
  isDigitB_ne h (by decide)

theorem digit_lt_iff_charVal {c d : Char} (hc : isDigitB c = true)
    (hd : isDigitB d = true) : c < d ↔ charVal c < charVal d := by
  have h1 := isDigitB_bounds hc
  have h2 := isDigitB_bounds hd
  rw [char_lt_iff]
  unfold charVal
  omega

theorem digit_eq_iff_charVal {c d : Char} (hc : isDigitB c = true)
    (hd : isDigitB d = true) : c = d ↔ charVal c = charVal d := by
  have h1 := isDigitB_bounds hc
  have h2 := isDigitB_bounds hd
  rw [char_eq_iff]
  unfold charVal
  omega

/-! ## splitLast facts -/

theorem splitLast_isSome {s : Str} : (splitLast s).isSome = true ↔ '@' ∈ s := by
  induction s with
  | nil => simp [splitLast]
  | cons c cs ih =>
    rw [splitLast]
    cases h : splitLast cs with
    | some pq =>
      have : '@' ∈ cs := ih.mp (by rw [h]; rfl)
      simp [this]
    | none =>
      have hns : ¬ '@' ∈ cs := fun hm => by simpa [h] using ih.mpr hm
      by_cases hc : c = '@'
      · simp [hc]
      · simp only [if_neg hc, Option.isSome_none, List.mem_cons]
        constructor
        · intro h'
          cases h'
        · rintro (he | hm)
          · exact absurd he.symm hc
          · exact absurd hm hns

theorem splitLast_eq_none {s : Str} : splitLast s = none ↔ '@' ∉ s := by
  rw [← splitLast_isSome]
  cases splitLast s <;> simp

theorem splitLast_append {p q : Str} (hq : '@' ∉ q) :
    splitLast (p ++ '@' :: q) = some (p, q) := by
  induction p with
  | nil =>
    simp [splitLast, splitLast_eq_none.mpr hq]
  | cons c p' ih =>
    simp only [List.cons_append, splitLast, ih, List.append_eq]

theorem splitLast_some {s p q : Str} (h : splitLast s = some (p, q)) :
    s = p ++ '@' :: q ∧ '@' ∉ q := by
  induction s generalizing p q with
  | nil => simp [splitLast] at h
  | cons c cs ih =>
    rw [splitLast] at h
    cases h' : splitLast cs with
    | some pq =>
      obtain ⟨p', q'⟩ := pq
      rw [h'] at h
      have hp : c :: p' = p := congrArg Prod.fst (Option.some.inj h)
      have hq : q' = q := congrArg Prod.snd (Option.some.inj h)
      obtain ⟨hs, hnq⟩ := ih h'
      subst hp hq
      rw [hs]
      exact ⟨rfl, hnq⟩
    | none =>
      rw [h'] at h
      by_cases hc : c = '@'
      · rw [if_pos hc] at h
        have hp : ([] : Str) = p := congrArg Prod.fst (Option.some.inj h)
        have hq : cs = q := congrArg Prod.snd (Option.some.inj h)
        subst hp hq hc
        exact ⟨rfl, splitLast_eq_none.mp h'⟩
      · rw [if_neg hc] at h
        cases h

theorem beforeLastAt_append {p q : Str} (hq : '@' ∉ q) :
    beforeLastAt (p ++ '@' :: q) = p := by
  rw [beforeLastAt, splitLast_append hq]
  rfl

theorem afterLastAt_append {p q : Str} (hq : '@' ∉ q) :
    afterLastAt (p ++ '@' :: q) = q := by
  rw [afterLastAt, splitLast_append hq]
  rfl

/-- A label with a fixed `@`-free suffix decomposes uniquely. -/
theorem label_append_inj {p₁ q₁ p₂ q₂ : Str} (h1 : '@' ∉ q₁) (h2 : '@' ∉ q₂)
    (h : p₁ ++ '@' :: q₁ = p₂ ++ '@' :: q₂) : p₁ = p₂ ∧ q₁ = q₂ := by
  have := splitLast_append (p := p₁) h1
  rw [h, splitLast_append h2] at this
  simpa [Prod.ext_iff, and_comm] using this.symm

/-! ## Decimal value and rendering facts -/

theorem digitsVal_go (a : Nat) (s : Str) :
    s.foldl (fun a c => a * 10 + charVal c) a = a * 10 ^ s.length + digitsVal s := by
  induction s generalizing a with
  | nil => simp [digitsVal]
  | cons c cs ih =>
    rw [List.foldl_cons, ih]
    have h2 : digitsVal (c :: cs) = charVal c * 10 ^ cs.length + digitsVal cs := by
      unfold digitsVal
      rw [List.foldl_cons, ih]
      ring_nf
      rfl
    rw [h2, List.length_cons]
    ring

theorem digitsVal_cons (c : Char) (s : Str) :
    digitsVal (c :: s) = charVal c * 10 ^ s.length + digitsVal s := by
  unfold digitsVal
  rw [List.foldl_cons, digitsVal_go]
  ring_nf
  rfl

theorem digitsVal_append_singleton (s : Str) (c : Char) :
    digitsVal (s ++ [c]) = digitsVal s * 10 + charVal c := by
  unfold digitsVal
  rw [List.foldl_append]
  rfl

theorem digitsVal_lt (s : Str) (h : ∀ c ∈ s, isDigitB c = true) :
    digitsVal s < 10 ^ s.length := by
  induction s with
  | nil => simp [digitsVal]
  | cons c cs ih =>
    rw [digitsVal_cons, List.length_cons]
    have hv : charVal c ≤ 9 := charVal_le_of_isDigitB (h c (by simp))
    have hd : digitsVal cs < 10 ^ cs.length := ih (fun x hx => h x (by simp [hx]))
    have hm : charVal c * 10 ^ cs.length ≤ 9 * 10 ^ cs.length :=
      Nat.mul_le_mul_right _ hv
    have hp : 10 ^ (cs.length + 1) = 10 * 10 ^ cs.length := by ring
    omega

theorem digitsVal_cons_zero (s : Str) : digitsVal ('0' :: s) = digitsVal s := by
  rw [digitsVal_cons]
  norm_num [show charVal '0' = 0 from rfl]

theorem digitsVal_replicate_zero (k : Nat) (s : Str) :
    digitsVal (List.replicate k '0' ++ s) = digitsVal s := by
  induction k with
  | zero => simp
  | succ k ih => rw [List.replicate_succ, List.cons_append, digitsVal_cons_zero, ih]

theorem natDigitsRevAux_zero (fuel : Nat) : natDigitsRevAux fuel 0 = [] := by
  cases fuel <;> simp [natDigitsRevAux]

theorem natDigitsRevAux_congr : ∀ {fuel fuel' n : Nat}, n ≤ fuel → n ≤ fuel' →
    natDigitsRevAux fuel n = natDigitsRevAux fuel' n := by
  intro fuel
  induction fuel with
  | zero =>
    intro fuel' n h _
    have : n = 0 := Nat.le_zero.mp h
    subst this
    rw [natDigitsRevAux_zero, natDigitsRevAux_zero]
  | succ fuel ih =>
    intro fuel' n h h'
    by_cases hn : n = 0
    · subst hn
      rw [natDigitsRevAux_zero, natDigitsRevAux_zero]
    · cases fuel' with
      | zero => omega
      | succ k =>
        rw [natDigitsRevAux, natDigitsRevAux, if_neg hn, if_neg hn]
        have hd : n / 10 < n := Nat.div_lt_self (Nat.pos_of_ne_zero hn) (by decide)
        exact congrArg _ (ih (by omega) (by omega))

theorem natDigitsRev_eq (n : Nat) :
    natDigitsRev n = if n = 0 then [] else digitChar (n % 10) :: natDigitsRev (n / 10) := by
  by_cases hn : n = 0
  · subst hn
    rw [if_pos rfl]
    exact natDigitsRevAux_zero 0
  · rw [if_neg hn]
    unfold natDigitsRev
    cases n with
    | zero => exact absurd rfl hn
    | succ m =>
      rw [natDigitsRevAux, if_neg hn]
      have hd : (m + 1) / 10 < m + 1 := Nat.div_lt_self (Nat.succ_pos m) (by decide)
      exact congrArg _ (natDigitsRevAux_congr (by omega) (le_refl _))

theorem natDigitsRev_all_digits (n : Nat) : ∀ c ∈ natDigitsRev n, isDigitB c = true := by
  induction n using Nat.strong_induction_on with
  | _ n ih =>
    rw [natDigitsRev_eq]
    by_cases hn : n = 0
    · simp [hn]
    · rw [if_neg hn]
      intro c hc
      rcases List.mem_cons.mp hc with h | h
      · subst h
        exact isDigitB_digitChar (by omega)
      · exact ih (n / 10) (Nat.div_lt_self (Nat.pos_of_ne_zero hn) (by decide)) c h

theorem pyStr_all_digits (n : Nat) : ∀ c ∈ pyStr n, isDigitB c = true := by
  unfold pyStr
  by_cases hn : n = 0
  · simp [hn]
    decide
  · rw [if_neg hn]
    intro c hc
    exact natDigitsRev_all_digits n c (List.mem_reverse.mp hc)

theorem digitsVal_revDigits (n : Nat) : digitsVal (natDigitsRev n).reverse = n := by
  induction n using Nat.strong_induction_on with
  | _ n ih =>
    rw [natDigitsRev_eq]
    by_cases hn : n = 0
    · simp [hn, digitsVal]
    · rw [if_neg hn, List.reverse_cons, digitsVal_append_singleton,
        ih (n / 10) (Nat.div_lt_self (Nat.pos_of_ne_zero hn) (by decide)),
        charVal_digitChar (by omega)]
      omega

theorem digitsVal_pyStr (n : Nat) : digitsVal (pyStr n) = n := by
  unfold pyStr
  by_cases hn : n = 0
  · simp [hn]
    decide
  · rw [if_neg hn, digitsVal_revDigits]

theorem pyStr_ne_nil (n : Nat) : pyStr n ≠ [] := by
  unfold pyStr
  by_cases hn : n = 0
  · simp [hn]
  · rw [if_neg hn]
    intro h
    rw [List.reverse_eq_nil_iff, natDigitsRev_eq, if_neg hn] at h
    cases h

theorem natDigitsRev_length_le {n w : Nat} (h : n < 10 ^ w) :
    (natDigitsRev n).length ≤ w := by
  induction w generalizing n with
  | zero =>
    have : n = 0 := by simpa using h
    simp [this, natDigitsRev_eq]
  | succ w ih =>
    rw [natDigitsRev_eq]
    by_cases hn : n = 0
    · simp [hn]
    · rw [if_neg hn, List.length_cons]
      have : n / 10 < 10 ^ w := by
        rw [Nat.div_lt_iff_lt_mul (by decide)]
        calc n < 10 ^ (w + 1) := h
        _ = 10 ^ w * 10 := by ring
      exact Nat.succ_le_succ (ih this)

theorem pyStr_length_le {n w : Nat} (hw : 1 ≤ w) (h : n < 10 ^ w) :
    (pyStr n).length ≤ w := by
  unfold pyStr
  by_cases hn : n = 0
  · simpa [hn] using hw
  · rw [if_neg hn, List.length_reverse]
    exact natDigitsRev_length_le h

theorem natDigitsRev_length_ge {n w : Nat} (h : 10 ^ w ≤ n) :
    w + 1 ≤ (natDigitsRev n).length := by
  induction w generalizing n with
  | zero =>
    have hn : n ≠ 0 := by
      have h1 : (1 : Nat) ≤ n := by simpa using h
      omega
    rw [natDigitsRev_eq, if_neg hn, List.length_cons]
    omega
  | succ w ih =>
    have hn : n ≠ 0 := by
      have h10 : 0 < 10 ^ (w + 1) := pow_pos (by norm_num) _
      omega
    rw [natDigitsRev_eq, if_neg hn, List.length_cons]
    have : 10 ^ w ≤ n / 10 := by
      rw [Nat.le_div_iff_mul_le (by decide)]
      calc 10 ^ w * 10 = 10 ^ (w + 1) := by ring
      _ ≤ n := h
    exact Nat.succ_le_succ (ih this)

theorem pyStr_length_ge {n w : Nat} (h : 10 ^ w ≤ n) :
    w + 1 ≤ (pyStr n).length := by
  have hn : n ≠ 0 := by
    have h10 : 0 < 10 ^ w := pow_pos (by norm_num) _
    omega
  unfold pyStr
  rw [if_neg hn, List.length_reverse]
  exact natDigitsRev_length_ge h

theorem zfill_length {w : Nat} {s : Str} (h : s.length ≤ w) :
    (zfill w s).length = w := by
  simp [zfill]
  omega

theorem zfill_eq_of_le {w : Nat} {s : Str} (h : w ≤ s.length) : zfill w s = s := by
  simp [zfill, Nat.sub_eq_zero_of_le h]

theorem digitsVal_zfill (w n : Nat) : digitsVal (zfill w (pyStr n)) = n := by
  rw [zfill, digitsVal_replicate_zero, digitsVal_pyStr]

theorem zfill_all_digits {w : Nat} {s : Str} (h : ∀ c ∈ s, isDigitB c = true) :
    ∀ c ∈ zfill w s, isDigitB c = true := by
  intro c hc
  rcases List.mem_append.mp hc with hm | hm
  · rw [List.eq_of_mem_replicate hm]
    decide
  · exact h c hm

theorem zfill_pyStr_all_digits (w n : Nat) :
    ∀ c ∈ zfill w (pyStr n), isDigitB c = true :=
  zfill_all_digits (pyStr_all_digits n)

theorem at_not_mem_zfill_pyStr (w n : Nat) : '@' ∉ zfill w (pyStr n) := by
  intro hm
  exact isDigitB_ne_at (zfill_pyStr_all_digits w n '@' hm) rfl

theorem zfill_ne_nil (w n : Nat) : zfill w (pyStr n) ≠ [] := by
  intro h
  rcases List.append_eq_nil.mp h with ⟨_, h2⟩
  exact pyStr_ne_nil n h2

theorem isDigits_zfill_pyStr (w n : Nat) : isDigits (zfill w (pyStr n)) = true := by
  unfold isDigits
  rw [Bool.and_eq_true]
  constructor
  · cases hz : zfill w (pyStr n) with
    | nil => exact absurd hz (zfill_ne_nil w n)
    | cons a l => rfl
  · rw [List.all_eq_true]
    intro c hc
    exact zfill_pyStr_all_digits w n c hc

/-! ## Lexicographic comparison facts -/

theorem strLtB_cons (a b : Char) (as bs : Str) :
    strLtB (a :: as) (b :: bs) =
      if a < b then true else if b < a then false else strLtB as bs := rfl

theorem strLtB_irrefl (a : Str) : strLtB a a = false := by
  induction a with
  | nil => rfl
  | cons c cs ih =>
    rw [strLtB_cons, if_neg (lt_irrefl c), if_neg (lt_irrefl c)]
    exact ih

theorem strLtB_asymm {a b : Str} (h : strLtB a b = true) : strLtB b a = false := by
  induction a generalizing b with
  | nil =>
    cases b with
    | nil => cases h
    | cons c cs => rfl
  | cons x xs ih =>
    cases b with
    | nil => cases h
    | cons y ys =>
      rw [strLtB_cons] at h
      rw [strLtB_cons]
      by_cases hxy : x < y
      · rw [if_neg (lt_asymm hxy), if_pos hxy]
      · rw [if_neg hxy] at h
        by_cases hyx : y < x
        · rw [if_pos hyx] at h
          cases h
        · rw [if_neg hyx] at h
          rw [if_neg hyx, if_neg hxy]
          exact ih h

theorem strLtB_connex {a b : Str} (h1 : strLtB a b = false)
    (h2 : strLtB b a = false) : a = b := by
  induction a generalizing b with
  | nil =>
    cases b with
    | nil => rfl
    | cons c cs => cases h1
  | cons x xs ih =>
    cases b with
    | nil => cases h2
    | cons y ys =>
      rw [strLtB_cons] at h1 h2
      by_cases hxy : x < y
      · rw [if_pos hxy] at h1
        cases h1
      · by_cases hyx : y < x
        · rw [if_pos hyx] at h2
          cases h2
        · have hxy' : x = y := le_antisymm (not_lt.mp hyx) (not_lt.mp hxy)
          rw [if_neg hxy, if_neg hyx] at h1
          rw [if_neg hyx, if_neg hxy] at h2
          rw [hxy', ih h1 h2]

theorem strLtB_trans {a b c : Str} (h1 : strLtB a b = true)
    (h2 : strLtB b c = true) : strLtB a c = true := by
  induction a generalizing b c with
  | nil =>
    cases c with
    | nil =>
      cases b with
      | nil => cases h1
      | cons y ys => cases h2
    | cons z zs => rfl
  | cons x xs ih =>
    cases b with
    | nil => cases h1
    | cons y ys =>
      cases c with
      | nil => cases h2
      | cons z zs =>
        rw [strLtB_cons] at h1 h2
        rw [strLtB_cons]
        by_cases hxy : x < y
        · by_cases hyz : y < z
          · rw [if_pos (lt_trans hxy hyz)]
          · by_cases hzy : z < y
            · rw [if_neg hyz, if_pos hzy] at h2
              cases h2
            · have : y = z := le_antisymm (not_lt.mp hzy) (not_lt.mp hyz)
              rw [if_pos (this ▸ hxy)]
        · rw [if_neg hxy] at h1
          by_cases hyx : y < x
          · rw [if_pos hyx] at h1
            cases h1
          · rw [if_neg hyx] at h1
            have hxy' : x = y := le_antisymm (not_lt.mp hyx) (not_lt.mp hxy)
            subst hxy'
            by_cases hxz : x < z
            · rw [if_pos hxz]
            · rw [if_neg hxz] at h2 ⊢
              by_cases hzx : z < x
              · rw [if_pos hzx] at h2
                cases h2
              · rw [if_neg hzx] at h2 ⊢
                exact ih h1 h2

theorem strLeB_eq_true_iff {a b : Str} : strLeB a b = true ↔ strLtB b a = false := by
  rw [strLeB, Bool.not_eq_true']

theorem strLeB_refl (a : Str) : strLeB a a = true :=
  strLeB_eq_true_iff.mpr (strLtB_irrefl a)

theorem strLeB_total (a b : Str) : strLeB a b = true ∨ strLeB b a = true := by
  by_cases h : strLtB b a = true
  · exact Or.inr (strLeB_eq_true_iff.mpr (strLtB_asymm h))
  · exact Or.inl (strLeB_eq_true_iff.mpr (Bool.not_eq_true _ ▸ h : strLtB b a = false))

theorem strLeB_trans {a b c : Str} (h1 : strLeB a b = true)
    (h2 : strLeB b c = true) : strLeB a c = true := by
  rw [strLeB_eq_true_iff] at h1 h2 ⊢
  by_cases hca : strLtB c a = true
  · by_cases hab : strLtB a b = true
    · rw [strLtB_trans hca hab] at h2
      cases h2
    · have hab' : strLtB a b = false := Bool.not_eq_true _ ▸ hab
      have : a = b := strLtB_connex hab' h1
      rw [← this, hca] at h2
      cases h2
  · exact Bool.not_eq_true _ ▸ hca

theorem strLeB_antisymm {a b : Str} (h1 : strLeB a b = true)
    (h2 : strLeB b a = true) : a = b :=
  strLtB_connex (strLeB_eq_true_iff.mp h2) (strLeB_eq_true_iff.mp h1)

instance (key : Nat → Str) : IsTotal Nat (noteKeyLe key) :=
  ⟨fun a b => strLeB_total (key a) (key b)⟩

instance (key : Nat → Str) : IsTrans Nat (noteKeyLe key) :=
  ⟨fun _ _ _ => strLeB_trans⟩

theorem strLtB_append_left (p x y : Str) :
    strLtB (p ++ x) (p ++ y) = strLtB x y := by
  induction p with
  | nil => rfl
  | cons c cs ih =>
    rw [List.cons_append, List.cons_append, strLtB_cons,
      if_neg (lt_irrefl c), if_neg (lt_irrefl c)]
    exact ih

theorem strLtB_self_append (x : Str) {z : Str} (hz : z ≠ []) :
    strLtB x (x ++ z) = true := by
  induction x with
  | nil =>
    cases z with
    | nil => exact absurd rfl hz
    | cons c cs => rfl
  | cons c cs ih =>
    rw [List.cons_append, strLtB_cons, if_neg (lt_irrefl c), if_neg (lt_irrefl c)]
    exact ih

theorem strLtB_append_of_ne_left {u w : Str} (z : Str) (hlen : u.length = w.length)
    (hne : u ≠ w) : strLtB (u ++ z) w = strLtB u w := by
  induction u generalizing w with
  | nil =>
    cases w with
    | nil => exact absurd rfl hne
    | cons b ws => simp at hlen
  | cons a us ih =>
    cases w with
    | nil => simp at hlen
    | cons b ws =>
      rw [List.cons_append, strLtB_cons, strLtB_cons]
      by_cases hab : a < b
      · rw [if_pos hab, if_pos hab]
      · rw [if_neg hab, if_neg hab]
        by_cases hba : b < a
        · rw [if_pos hba, if_pos hba]
        · rw [if_neg hba, if_neg hba]
          have hab' : a = b := le_antisymm (not_lt.mp hba) (not_lt.mp hab)
          have hus : us ≠ ws := by
            intro he
            exact hne (by rw [hab', he])
          exact ih (by simpa using hlen) hus

theorem strLtB_append_of_ne_right {u w : Str} (z : Str) (hlen : u.length = w.length)
    (hne : u ≠ w) : strLtB w (u ++ z) = strLtB w u := by
  induction u generalizing w with
  | nil =>
    cases w with
    | nil => exact absurd rfl hne
    | cons b ws => simp at hlen
  | cons a us ih =>
    cases w with
    | nil => simp at hlen
    | cons b ws =>
      rw [List.cons_append, strLtB_cons, strLtB_cons]
      by_cases hba : b < a
      · rw [if_pos hba, if_pos hba]
      · rw [if_neg hba, if_neg hba]
        by_cases hab : a < b
        · rw [if_pos hab, if_pos hab]
        · rw [if_neg hab, if_neg hab]
          have hab' : a = b := le_antisymm (not_lt.mp hba) (not_lt.mp hab)
          have hus : us ≠ ws := by
            intro he
            exact hne (by rw [hab', he])
          exact ih (by simpa using hlen) hus

/-- On equal-length digit strings, lexicographic order is numeric order. -/
theorem strLtB_digits_iff {x y : Str} (hx : ∀ c ∈ x, isDigitB c = true)
    (hy : ∀ c ∈ y, isDigitB c = true) (hlen : x.length = y.length) :
    (strLtB x y = true ↔ digitsVal x < digitsVal y) := by
  induction x generalizing y with
  | nil =>
    cases y with
    | nil => simp [strLtB, digitsVal]
    | cons d ds => simp at hlen
  | cons c cs ih =>
    cases y with
    | nil => simp at hlen
    | cons d ds =>
      have hlen' : cs.length = ds.length := by simpa using hlen
      have hc : isDigitB c = true := hx c (by simp)
      have hd : isDigitB d = true := hy d (by simp)
      have hcs : ∀ e ∈ cs, isDigitB e = true := fun e he => hx e (by simp [he])
      have hds : ∀ e ∈ ds, isDigitB e = true := fun e he => hy e (by simp [he])
      rw [strLtB_cons, digitsVal_cons, digitsVal_cons, hlen']
      have hvcs : digitsVal cs < 10 ^ ds.length := hlen' ▸ digitsVal_lt cs hcs
      have hvds : digitsVal ds < 10 ^ ds.length := digitsVal_lt ds hds
      by_cases h1 : c < d
      · rw [if_pos h1]
        have h2 : charVal c < charVal d := (digit_lt_iff_charVal hc hd).mp h1
        have h3 : (charVal c + 1) * 10 ^ ds.length ≤ charVal d * 10 ^ ds.length :=
          Nat.mul_le_mul_right _ h2
        have h4 : (charVal c + 1) * 10 ^ ds.length
            = charVal c * 10 ^ ds.length + 10 ^ ds.length := by ring
        simp only [true_iff]
        omega
      · rw [if_neg h1]
        by_cases h2 : d < c
        · rw [if_pos h2]
          have h3 : charVal d < charVal c := (digit_lt_iff_charVal hd hc).mp h2
          have h4 : (charVal d + 1) * 10 ^ ds.length ≤ charVal c * 10 ^ ds.length :=
            Nat.mul_le_mul_right _ h3
          have h5 : (charVal d + 1) * 10 ^ ds.length
              = charVal d * 10 ^ ds.length + 10 ^ ds.length := by ring
          simp only [Bool.false_eq_true, false_iff]
          omega
        · rw [if_neg h2]
          have hcd : c = d := le_antisymm (not_lt.mp h2) (not_lt.mp h1)
          rw [hcd, ih hcs hds hlen']
          omega

/-- Zero-padded renderings of two values below the width bound compare
lexicographically exactly as the values compare numerically. -/
theorem strLtB_zfill_iff {w a b : Nat} (hw : 1 ≤ w) (ha : a < 10 ^ w)
    (hb : b < 10 ^ w) :
    (strLtB (zfill w (pyStr a)) (zfill w (pyStr b)) = true ↔ a < b) := by
  have hlen : (zfill w (pyStr a)).length = (zfill w (pyStr b)).length := by
    rw [zfill_length (pyStr_length_le hw ha), zfill_length (pyStr_length_le hw hb)]
  rw [strLtB_digits_iff (zfill_pyStr_all_digits w a) (zfill_pyStr_all_digits w b) hlen,
    digitsVal_zfill, digitsVal_zfill]

theorem strLeB_zfill_iff {w a b : Nat} (hw : 1 ≤ w) (ha : a < 10 ^ w)
    (hb : b < 10 ^ w) :
    (strLeB (zfill w (pyStr a)) (zfill w (pyStr b)) = true ↔ a ≤ b) := by
  rw [strLeB_eq_true_iff]
  have := strLtB_zfill_iff hw hb ha
  constructor
  · intro h
    by_contra hab
    exact absurd (this.mpr (by omega)) (by rw [h]; simp)
  · intro h
    cases hlt : strLtB (zfill w (pyStr b)) (zfill w (pyStr a)) with
    | false => rfl
    | true => exact absurd (this.mp hlt) (by omega)

/-- The same, with zero-padded values injective. -/
theorem zfill_pyStr_inj {w a b : Nat} (h : zfill w (pyStr a) = zfill w (pyStr b)) :
    a = b := by
  have := digitsVal_zfill w a
  rw [h, digitsVal_zfill] at this
  exact this.symm

/-! ## int() on digit strings, and label parsing structure -/

theorem dropWhile_eq_self_of_all {p : Char → Bool} {s : Str}
    (h : ∀ c ∈ s, p c = false) : s.dropWhile p = s := by
  cases s with
  | nil => rfl
  | cons c cs =>
    rw [List.dropWhile_cons, h c (by simp)]
    simp

theorem stripWs_digits {s : Str} (h : ∀ c ∈ s, isDigitB c = true) :
    stripWs s = s := by
  unfold stripWs
  rw [dropWhile_eq_self_of_all (fun c hc => isDigitB_not_ws (h c hc)),
    dropWhile_eq_self_of_all (fun c hc =>
      isDigitB_not_ws (h c (List.mem_reverse.mp hc))),
    List.reverse_reverse]

theorem pyDigitsGo_digits {s : Str} (a : Nat) (h : ∀ c ∈ s, isDigitB c = true) :
    pyDigitsGo a s = some (a * 10 ^ s.length + digitsVal s) := by
  induction s generalizing a with
  | nil => simp [pyDigitsGo, digitsVal]
  | cons c cs ih =>
    have hstep : pyDigitsGo a (c :: cs) = pyDigitsGo (a * 10 + charVal c) cs := by
      rw [pyDigitsGo.eq_def]
      dsimp only
      rw [if_pos (h c (by simp))]
    rw [hstep, ih _ (fun x hx => h x (by simp [hx])),
      digitsVal_cons, List.length_cons]
    ring_nf

theorem pyDigits_digits {s : Str} (h : isDigits s = true) :
    pyDigits s = some (digitsVal s) := by
  unfold isDigits at h
  rw [Bool.and_eq_true, List.all_eq_true] at h
  obtain ⟨hne, hall⟩ := h
  have hall' : ∀ c ∈ s, isDigitB c = true := fun c hc => by simpa using hall c hc
  cases s with
  | nil => cases hne
  | cons c cs =>
    have hstep : pyDigits (c :: cs) = pyDigitsGo (charVal c) cs := by
      rw [pyDigits.eq_def]
      dsimp only
      rw [if_pos (hall' c (by simp))]
    rw [hstep,
      pyDigitsGo_digits _ (fun x hx => hall' x (by simp [hx])), digitsVal_cons]

theorem isDigits_all {s : Str} (h : isDigits s = true) :
    ∀ c ∈ s, isDigitB c = true := by
  unfold isDigits at h
  rw [Bool.and_eq_true, List.all_eq_true] at h
  exact fun c hc => by simpa using h.2 c hc

theorem isDigits_ne_nil {s : Str} (h : isDigits s = true) : s ≠ [] := by
  unfold isDigits at h
  rw [Bool.and_eq_true] at h
  intro he
  subst he
  cases h.1

theorem pyInt_digits {s : Str} (h : isDigits s = true) :
    pyInt s = some (Int.ofNat (digitsVal s)) := by
  have hall := isDigits_all h
  unfold pyInt
  rw [stripWs_digits hall]
  split
  · next r =>
    exact absurd (hall '+' (List.mem_cons_self '+' r)) (by decide)
  · next r =>
    exact absurd (hall '-' (List.mem_cons_self '-' r)) (by decide)
  · rw [pyDigits_digits h]
    rfl

theorem parseLabel_of_splitLast_some {s p d : Str} (h : splitLast s = some (p, d)) :
    parseLabel s = if isDigits d = true then some (p, digitsVal d) else none := by
  unfold parseLabel
  rw [h]

theorem parseLabel_of_splitLast_none {s : Str} (h : splitLast s = none) :
    parseLabel s = none := by
  unfold parseLabel
  rw [h]

theorem parseLabel_eq_some {s : Str} {p : Str} {n : Nat} :
    parseLabel s = some (p, n) ↔
      ∃ d, s = p ++ '@' :: d ∧ '@' ∉ d ∧ isDigits d = true ∧ digitsVal d = n := by
  constructor
  · intro h
    cases h' : splitLast s with
    | none => rw [parseLabel_of_splitLast_none h'] at h; cases h
    | some pd =>
      obtain ⟨p', d⟩ := pd
      rw [parseLabel_of_splitLast_some h'] at h
      by_cases hd : isDigits d = true
      · rw [if_pos hd] at h
        have hp : p' = p := congrArg Prod.fst (Option.some.inj h)
        have hn : digitsVal d = n := congrArg Prod.snd (Option.some.inj h)
        obtain ⟨hs, hnq⟩ := splitLast_some h'
        exact ⟨d, hp ▸ hs, hnq, hd, hn⟩
      · rw [if_neg hd] at h
        cases h
  · rintro ⟨d, rfl, hnq, hd, rfl⟩
    rw [parseLabel_of_splitLast_some (splitLast_append hnq), if_pos hd]

theorem parseLabel_isSome {s : Str} :
    (parseLabel s).isSome = true ↔
      ∃ p d, s = p ++ '@' :: d ∧ '@' ∉ d ∧ isDigits d = true := by
  constructor
  · intro h
    obtain ⟨⟨p, n⟩, hpn⟩ := Option.isSome_iff_exists.mp h
    obtain ⟨d, hs, hnq, hd, _⟩ := parseLabel_eq_some.mp hpn
    exact ⟨p, d, hs, hnq, hd⟩
  · rintro ⟨p, d, rfl, hnq, hd⟩
    rw [Option.isSome_iff_exists]
    exact ⟨(p, digitsVal d), parseLabel_eq_some.mpr ⟨d, rfl, hnq, hd, rfl⟩⟩

/-- `parse(format(p, i)) = (p, i)`: the codec round-trip at the level of
the label strings the source builds. -/
theorem parseLabel_formatLabel (p : Str) (i : Nat) :
    parseLabel (formatLabel p i) = some (p, i) :=
  parseLabel_eq_some.mpr
    ⟨zfill 5 (pyStr i), rfl, at_not_mem_zfill_pyStr 5 i, isDigits_zfill_pyStr 5 i,
      digitsVal_zfill 5 i⟩

/-! ## reorderKeys and reorderLoop characterization -/

theorem reorderKeys_eq_some {st : St} {l : List Nat} (f : Nat → Int)
    (h : ∀ c ∈ l, sortKeyOfLabel? (st.label c) = some (f c)) :
    reorderKeys st l = some (l.map (fun c => (c, f c))) := by
  induction l with
  | nil => rfl
  | cons c rest ih =>
    rw [reorderKeys, h c (by simp), ih (fun x hx => h x (by simp [hx]))]
    rfl

theorem reorderKeys_eq_none {st : St} {l : List Nat}
    (h : ∃ c ∈ l, sortKeyOfLabel? (st.label c) = none) :
    reorderKeys st l = none := by
  induction l with
  | nil => simp at h
  | cons c rest ih =>
    rw [reorderKeys]
    obtain ⟨x, hx, hk⟩ := h
    rcases List.mem_cons.mp hx with rfl | hx'
    · rw [hk]
    · cases hc : sortKeyOfLabel? (st.label c) with
      | none => rfl
      | some k => rw [ih ⟨x, hx', hk⟩]; rfl

theorem sortKey_some_shape {lab : Option Str} {z : Int}
    (h : sortKeyOfLabel? lab = some z) :
    ∃ s, lab = some s ∧ s.isEmpty = false := by
  cases lab with
  | none => cases h
  | some s =>
    refine ⟨s, rfl, ?_⟩
    cases s with
    | nil => cases h
    | cons c cs => rfl

/-- The write trace the sweep loop produces from position `i` on (each
visited card rewritten from its pre-loop label). -/
def sweepWrites (st : St) : Nat → List Nat → List (Nat × Str)
  | _, [] => []
  | i, c :: rest => (c, sweepLabel ((st.label c).getD []) i) :: sweepWrites st (i + 1) rest

theorem sweepWrites_congr {st st' : St} {l : List Nat} (i : Nat)
    (h : ∀ c ∈ l, st'.label c = st.label c) :
    sweepWrites st' i l = sweepWrites st i l := by
  induction l generalizing i with
  | nil => rfl
  | cons c rest ih =>
    rw [sweepWrites, sweepWrites, h c (by simp), ih _ (fun x hx => h x (by simp [hx]))]

theorem reorderStep_present {st : St} {c : Nat} {i : Nat} {s : Str}
    (hs : st.label c = some s) (hse : s.isEmpty = false) :
    reorderStep st i c = updateNote st c (sweepLabel s i) := by
  unfold reorderStep
  rw [hs]
  show (if s.isEmpty = true then st else updateNote st c (sweepLabel s i)) = _
  rw [if_neg (by rw [hse]; exact Bool.false_ne_true)]

theorem reorderLoop_spec {l : List Nat} :
    ∀ {st : St} {i : Nat}, l.Nodup →
    (∀ c ∈ l, ∃ s, st.label c = some s ∧ s.isEmpty = false) →
    (reorderLoop st i l).writes = st.writes ++ sweepWrites st i l
    ∧ (∀ m, m ∉ l → (reorderLoop st i l).label m = st.label m)
    ∧ (∀ k, (hk : k < l.length) → (reorderLoop st i l).label (l.get ⟨k, hk⟩) =
        some (sweepLabel ((st.label (l.get ⟨k, hk⟩)).getD []) (i + k))) := by
  induction l with
  | nil =>
    intro st i _ _
    refine ⟨by simp [reorderLoop, sweepWrites], fun m _ => rfl, fun k hk => ?_⟩
    simp at hk
  | cons c rest ih =>
    intro st i hnd hp
    obtain ⟨s, hs, hse⟩ := hp c (by simp)
    have hcr : c ∉ rest := (List.nodup_cons.mp hnd).1
    have hndr : rest.Nodup := (List.nodup_cons.mp hnd).2
    have hstep : reorderLoop st i (c :: rest) =
        reorderLoop (updateNote st c (sweepLabel s i)) (i + 1) rest := by
      show reorderLoop (reorderStep st i c) (i + 1) rest = _
      rw [reorderStep_present hs hse]
    set st' := updateNote st c (sweepLabel s i) with hst'
    have hagree : ∀ x ∈ rest, st'.label x = st.label x := by
      intro x hx
      show (if x = c then some (sweepLabel s i) else st.label x) = st.label x
      rw [if_neg (show ¬ x = c from fun he => hcr (he ▸ hx))]
    have hp' : ∀ x ∈ rest, ∃ t, st'.label x = some t ∧ t.isEmpty = false := by
      intro x hx
      obtain ⟨t, ht, hte⟩ := hp x (by simp [hx])
      exact ⟨t, by rw [hagree x hx, ht], hte⟩
    obtain ⟨ihw, ihnm, ihpos⟩ := ih hndr hp'
    refine ⟨?_, ?_, ?_⟩
    · rw [hstep, ihw]
      show st.writes ++ [(c, sweepLabel s i)] ++ sweepWrites st' (i + 1) rest = _
      rw [sweepWrites_congr (i + 1) hagree, List.append_assoc]
      show _ = st.writes ++
        ((c, sweepLabel ((st.label c).getD []) i) :: sweepWrites st (i + 1) rest)
      rw [hs]
      rfl
    · intro m hm
      have hm' : m ∉ rest := fun hmr => hm (List.mem_cons_of_mem c hmr)
      have hmc : ¬ m = c := fun he => hm (by rw [he]; exact List.mem_cons_self c rest)
      rw [hstep, ihnm m hm']
      show (if m = c then some (sweepLabel s i) else st.label m) = st.label m
      rw [if_neg hmc]
    · intro k hk
      cases k with
      | zero =>
        rw [hstep]
        show (reorderLoop st' (i + 1) rest).label c =
          some (sweepLabel ((st.label c).getD []) (i + 0))
        rw [ihnm c hcr]
        show (if c = c then some (sweepLabel s i) else st.label c) =
          some (sweepLabel ((st.label c).getD []) (i + 0))
        rw [if_pos rfl, hs]
        rfl
      | succ k =>
        rw [hstep]
        have hk' : k < rest.length := by simpa using hk
        have hmem : rest.get ⟨k, hk'⟩ ∈ rest := rest.get_mem k hk'
        show (reorderLoop st' (i + 1) rest).label (rest.get ⟨k, hk'⟩) =
          some (sweepLabel ((st.label (rest.get ⟨k, hk'⟩)).getD []) (i + (k + 1)))
        rw [ihpos k hk', hagree _ hmem]
        have harith : i + 1 + k = i + (k + 1) := by omega
        rw [harith]

/-! ## Stability of the sort, and the full sweep specification -/

theorem filter_orderedInsert_key (z : Int) (a : Nat × Int) :
    ∀ l : List (Nat × Int),
    (List.orderedInsert intKeyLe a l).filter (fun x => x.2 == z) =
      if a.2 == z then a :: l.filter (fun x => x.2 == z)
      else l.filter (fun x => x.2 == z)
  | [] => by simp [List.orderedInsert, List.filter_cons]
  | b :: l' => by
    rw [List.orderedInsert]
    by_cases hab : intKeyLe a b
    · rw [if_pos hab]
      by_cases haz : (a.2 == z) = true
      · simp [List.filter_cons, haz]
      · rw [Bool.not_eq_true] at haz
        simp [List.filter_cons, haz]
    · rw [if_neg hab, List.filter_cons, filter_orderedInsert_key z a l']
      by_cases haz : (a.2 == z) = true
      · have hlt : b.2 < a.2 := by
          unfold intKeyLe at hab
          omega
        have haz' : a.2 = z := by simpa using haz
        have hbz : (b.2 == z) = false := by
          simp only [beq_eq_false_iff_ne, ne_eq]
          omega
        simp [List.filter_cons, haz, hbz]
      · rw [Bool.not_eq_true] at haz
        simp [List.filter_cons, haz]

theorem filter_insertionSort_key (z : Int) :
    ∀ l : List (Nat × Int),
    (List.insertionSort intKeyLe l).filter (fun x => x.2 == z) =
      l.filter (fun x => x.2 == z)
  | [] => rfl
  | a :: l' => by
    rw [List.insertionSort, filter_orderedInsert_key z a,
      filter_insertionSort_key z l', List.filter_cons]

/-- Full specification of a sweep whose every sort key succeeds: there is
a visiting order that permutes the deck listing, is ascending in the key,
breaks key ties by the original listing order (stability), and the sweep
persists every record in that order, renumbering label positions from 1. -/
theorem reorder_sweep_spec {env : Env} {deck : Nat} {st : St} (f : Nat → Int)
    (hnd : (env.deckCids deck).Nodup)
    (hf : ∀ c ∈ env.deckCids deck, sortKeyOfLabel? (st.label c) = some (f c)) :
    ∃ order : List Nat,
      order.Perm (env.deckCids deck) ∧
      order.Pairwise (fun c c' => f c ≤ f c') ∧
      (∀ z : Int, order.filter (fun c => f c == z) =
        (env.deckCids deck).filter (fun c => f c == z)) ∧
      (reorder_deck_ids env deck st).writes = st.writes ++ sweepWrites st 1 order ∧
      (∀ m, m ∉ order → (reorder_deck_ids env deck st).label m = st.label m) ∧
      (∀ k, (hk : k < order.length) →
        (reorder_deck_ids env deck st).label (order.get ⟨k, hk⟩) =
          some (sweepLabel ((st.label (order.get ⟨k, hk⟩)).getD []) (1 + k))) := by
  set cids := env.deckCids deck with hcids
  set keyed := cids.map (fun c => (c, f c)) with hkeyed
  set sorted := List.insertionSort intKeyLe keyed with hsorted
  set order := sorted.map Prod.fst with horder
  have hmapfst : keyed.map Prod.fst = cids := by
    rw [hkeyed, List.map_map]
    have hid : (Prod.fst ∘ fun c : Nat => (c, f c)) = id := rfl
    rw [hid, List.map_id]
  have hpermsort : sorted.Perm keyed := List.perm_insertionSort intKeyLe keyed
  have hperm : order.Perm cids := by
    rw [horder, ← hmapfst]
    exact hpermsort.map Prod.fst
  have hshape : ∀ x ∈ sorted, x.2 = f x.1 := by
    intro x hx
    have hxk : x ∈ keyed := hpermsort.mem_iff.mp hx
    obtain ⟨c, _, rfl⟩ := List.mem_map.mp hxk
    rfl
  have hpair : order.Pairwise (fun c c' => f c ≤ f c') := by
    rw [horder, List.pairwise_map]
    have hs : sorted.Pairwise intKeyLe := List.sorted_insertionSort intKeyLe keyed
    exact hs.imp_of_mem (fun {x y} hx hy hr => by
      have := hshape x hx
      have := hshape y hy
      unfold intKeyLe at hr
      omega)
  have hstab : ∀ z : Int, order.filter (fun c => f c == z) =
      cids.filter (fun c => f c == z) := by
    intro z
    have h1 : order.filter (fun c => f c == z) =
        (sorted.filter (fun x => x.2 == z)).map Prod.fst := by
      rw [horder, List.filter_map]
      exact congrArg _ (List.filter_congr (fun x hx => by
        simp only [Function.comp_apply, hshape x hx]))
    rw [h1, hsorted, filter_insertionSort_key z keyed, hkeyed, List.filter_map,
      List.map_map]
    have h2 : ((fun x : Nat × Int => x.2 == z) ∘ fun c => (c, f c)) =
        fun c => f c == z := rfl
    rw [h2]
    have hid : (Prod.fst ∘ fun c : Nat => (c, f c)) = id := rfl
    rw [hid, List.map_id]
  have hred : reorder_deck_ids env deck st = reorderLoop st 1 order := by
    unfold reorder_deck_ids
    rw [← hcids, reorderKeys_eq_some f hf]
  have hndo : order.Nodup := hperm.symm.nodup hnd
  have hp : ∀ c ∈ order, ∃ s, st.label c = some s ∧ s.isEmpty = false := by
    intro c hc
    exact sortKey_some_shape (hf c (hperm.subset hc))
  obtain ⟨hw, hnm, hpos⟩ := reorderLoop_spec hndo hp
  exact ⟨order, hperm, hpair, hstab, by rw [hred]; exact hw,
    fun m hm => by rw [hred]; exact hnm m hm,
    fun k hk => by rw [hred]; exact hpos k hk⟩

/-! ## Small helpers for the claim theorems -/

theorem eq_some_getD {o : Option Int} (h : o.isSome = true) : o = some (o.getD 0) := by
  cases o with
  | none => cases h
  | some v => rfl

theorem sortKey_of_parseable {s : Str} (hp : (parseLabel s).isSome = true) :
    pyInt (afterLastAt s) = some (Int.ofNat (digitsVal (afterLastAt s))) := by
  obtain ⟨p, d, rfl, hnq, hd⟩ := parseLabel_isSome.mp hp
  rw [afterLastAt_append hnq]
  exact pyInt_digits hd

theorem sweepWrites_length (st : St) : ∀ (i : Nat) (l : List Nat),
    (sweepWrites st i l).length = l.length
  | _, [] => rfl
  | i, _ :: rest => by
    rw [sweepWrites, List.length_cons, List.length_cons, sweepWrites_length st (i + 1) rest]

theorem sweepWrites_mem (st : St) {c : Nat} : ∀ {i : Nat} {l : List Nat}, c ∈ l →
    ∃ s, (c, s) ∈ sweepWrites st i l := by
  intro i l
  induction l generalizing i with
  | nil => intro h; cases h
  | cons b rest ih =>
    intro h
    rcases List.mem_cons.mp h with rfl | hr
    · exact ⟨_, by rw [sweepWrites]; exact List.mem_cons_self _ _⟩
    · obtain ⟨s, hs⟩ := ih (i := i + 1) hr
      exact ⟨s, by rw [sweepWrites]; exact List.mem_cons_of_mem _ hs⟩

/-! ## Claim C1 -/

/-- C1: for every group whose records all carry a parseable label, after
the sweep (`reorder_deck_ids`) the multiset of indices carried by the N
labeled records is exactly {1, ..., N}: no gaps and no duplicates. -/
theorem C1_sweep_contiguity (env : Env) (deck : Nat) (st : St)
    (hnd : (env.deckCids deck).Nodup)
    (hall : ∀ cid ∈ env.deckCids deck,
      ∃ s, st.label cid = some s ∧ (parseLabel s).isSome = true) :
    ((env.deckCids deck).map (fun cid =>
        ((reorder_deck_ids env deck st).label cid).bind
          (fun s => (parseLabel s).map Prod.snd))).Perm
      ((List.range' 1 (env.deckCids deck).length).map some) := by
  classical
  have hf : ∀ c ∈ env.deckCids deck,
      sortKeyOfLabel? (st.label c) =
        some ((sortKeyOfLabel? (st.label c)).getD 0) := by
    intro c hc
    obtain ⟨s, hs, hp⟩ := hall c hc
    apply eq_some_getD
    rw [sortKeyOfLabel?, hs]
    show (pyInt (afterLastAt s)).isSome = true
    rw [sortKey_of_parseable hp]
    rfl
  obtain ⟨order, hperm, _, _, _, _, hpos⟩ :=
    reorder_sweep_spec (fun c => (sortKeyOfLabel? (st.label c)).getD 0) hnd hf
  have hlen : order.length = (env.deckCids deck).length := hperm.length_eq
  have hmap : order.map (fun cid =>
      ((reorder_deck_ids env deck st).label cid).bind
        (fun s => (parseLabel s).map Prod.snd)) =
      (List.range' 1 order.length).map some := by
    apply List.ext_getElem
    · simp
    · intro k h1 h2
      rw [List.getElem_map, List.getElem_map, List.getElem_range', Nat.one_mul]
      have hk : k < order.length := by simpa using h1
      have hlab := hpos k hk
      show ((reorder_deck_ids env deck st).label (order.get ⟨k, hk⟩)).bind
        (fun s => (parseLabel s).map Prod.snd) = some (1 + k)
      rw [hlab]
      show (parseLabel (formatLabel
        (beforeLastAt ((st.label (order.get ⟨k, hk⟩)).getD [])) (1 + k))).map Prod.snd
        = some (1 + k)
      rw [parseLabel_formatLabel]
      rfl
  exact (hperm.symm.map _).trans (by rw [hmap, hlen])

def envW1 : Env := ⟨fun _ => [], fun _ => [10, 11], fun _ => 0, []⟩

def stW1 : St :=
  ⟨fun n => if n = 10 then some "M@00002".data
    else if n = 11 then some "M@00007".data else none, []⟩

/-- Witness for C1 at a concrete two-record group. -/
theorem C1_sweep_contiguity_witness :
    (envW1.deckCids 0).Nodup ∧
    (∀ cid ∈ envW1.deckCids 0,
      ∃ s, stW1.label cid = some s ∧ (parseLabel s).isSome = true) ∧
    ((envW1.deckCids 0).map (fun cid =>
        ((reorder_deck_ids envW1 0 stW1).label cid).bind
          (fun s => (parseLabel s).map Prod.snd))).Perm
      ((List.range' 1 (envW1.deckCids 0).length).map some) := by
  have h1 : (envW1.deckCids 0).Nodup := by decide
  have h2 : ∀ cid ∈ envW1.deckCids 0,
      ∃ s, stW1.label cid = some s ∧ (parseLabel s).isSome = true := by
    intro cid hc
    have : cid = 10 ∨ cid = 11 := by simpa [envW1] using hc
    rcases this with rfl | rfl
    · exact ⟨"M@00002".data, by decide, by decide⟩
    · exact ⟨"M@00007".data, by decide, by decide⟩
  exact ⟨h1, h2, C1_sweep_contiguity envW1 0 stW1 h1 h2⟩

/-! ## Claim C4 -/

def envC4 : Env := ⟨fun _ => "G".data, fun _ => [0, 1], fun _ => 0, []⟩

def stC4 : St :=
  ⟨fun n => if n = 0 then none else if n = 1 then some "G@00005".data else none, []⟩

/-- C4 counterexample: a group holding one record with an absent label
and one labeled `G@00005`.  The claim says the absent-label record sorts
to the front with the smallest key and every record is rewritten to
`prefix@position` and persisted (so the labeled record would become
`G@00002` at position 2, with two writes).  The code instead raises
inside the sort key, absorbs the exception, writes nothing, and leaves
the labeled record at `G@00005`. -/
theorem C4_sweep_sort_counterexample :
    stC4.label 0 = none ∧
    (reorder_deck_ids envC4 0 stC4).writes = [] ∧
    (reorder_deck_ids envC4 0 stC4).label 1 = some "G@00005".data := by decide

/-- C4 (amended): when every record's suffix parses under `int`, the
sweep sorts ascending by that ordinal with ties kept in stable listing
order, rewrites position `1+k` onto the record at sorted position `k`,
and persists every record of the group even when its label did not
change; a group containing any absent or non-`int`-parseable label is
instead left entirely unwritten (see the counterexample). -/
theorem C4_sweep_sort_amended (env : Env) (deck : Nat) (st : St)
    (hnd : (env.deckCids deck).Nodup)
    (hkeys : ∀ cid ∈ env.deckCids deck,
      (sortKeyOfLabel? (st.label cid)).isSome = true) :
    ∃ order : List Nat,
      order.Perm (env.deckCids deck) ∧
      order.Pairwise (fun c c' =>
        (sortKeyOfLabel? (st.label c)).getD 0 ≤ (sortKeyOfLabel? (st.label c')).getD 0) ∧
      (∀ z : Int, order.filter (fun c => (sortKeyOfLabel? (st.label c)).getD 0 == z) =
        (env.deckCids deck).filter
          (fun c => (sortKeyOfLabel? (st.label c)).getD 0 == z)) ∧
      (reorder_deck_ids env deck st).writes = st.writes ++ sweepWrites st 1 order ∧
      (sweepWrites st 1 order).length = (env.deckCids deck).length ∧
      (∀ k, (hk : k < order.length) →
        (reorder_deck_ids env deck st).label (order.get ⟨k, hk⟩) =
          some (sweepLabel ((st.label (order.get ⟨k, hk⟩)).getD []) (1 + k))) := by
  obtain ⟨order, hperm, hpair, hstab, hw, _, hpos⟩ :=
    reorder_sweep_spec (fun c => (sortKeyOfLabel? (st.label c)).getD 0) hnd
      (fun c hc => eq_some_getD (hkeys c hc))
  exact ⟨order, hperm, hpair, hstab, hw,
    by rw [sweepWrites_length, hperm.length_eq], hpos⟩

def envW4 : Env := ⟨fun _ => "G".data, fun _ => [0, 1], fun _ => 0, []⟩

def stW4 : St :=
  ⟨fun n => if n = 0 then some "G@00009".data
    else if n = 1 then some "G@00004".data else none, []⟩

/-- Witness for C4 (amended) at a concrete two-record group. -/
theorem C4_sweep_sort_amended_witness :
    (envW4.deckCids 0).Nodup ∧
    (∀ cid ∈ envW4.deckCids 0,
      (sortKeyOfLabel? (stW4.label cid)).isSome = true) ∧
    (∃ order : List Nat,
      order.Perm (envW4.deckCids 0) ∧
      order.Pairwise (fun c c' =>
        (sortKeyOfLabel? (stW4.label c)).getD 0 ≤ (sortKeyOfLabel? (stW4.label c')).getD 0) ∧
      (∀ z : Int, order.filter (fun c => (sortKeyOfLabel? (stW4.label c)).getD 0 == z) =
        (envW4.deckCids 0).filter
          (fun c => (sortKeyOfLabel? (stW4.label c)).getD 0 == z)) ∧
      (reorder_deck_ids envW4 0 stW4).writes = stW4.writes ++ sweepWrites stW4 1 order ∧
      (sweepWrites stW4 1 order).length = (envW4.deckCids 0).length ∧
      (∀ k, (hk : k < order.length) →
        (reorder_deck_ids envW4 0 stW4).label (order.get ⟨k, hk⟩) =
          some (sweepLabel ((stW4.label (order.get ⟨k, hk⟩)).getD []) (1 + k)))) := by
  have h1 : (envW4.deckCids 0).Nodup := by decide
  have h2 : ∀ cid ∈ envW4.deckCids 0,
      (sortKeyOfLabel? (stW4.label cid)).isSome = true := by decide
  exact ⟨h1, h2, C4_sweep_sort_amended envW4 0 stW4 h1 h2⟩

/-! ## Claim C9 -/

def envC9 : Env := ⟨fun _ => "G".data, fun _ => [0], fun _ => 0, []⟩

def stC9 : St := ⟨fun n => if n = 0 then some "G@+3".data else none, []⟩

/-- C9 counterexample: the suffix `+3` after the last `@` is not entirely
digits, so the claim says the sweep writes no record at all; but Python's
`int("+3")` succeeds, so the code sorts fine and rewrites the record to
`G@00001`, persisting one write. -/
theorem C9_sweep_abort_counterexample :
    isDigits (afterLastAt "G@+3".data) = false ∧
    (reorder_deck_ids envC9 0 stC9).writes = [(0, "G@00001".data)] ∧
    (reorder_deck_ids envC9 0 stC9).label 0 = some "G@00001".data := by decide

/-- C9 (amended): for every group containing at least one record whose
label field is absent or whose suffix after the last `@` is rejected by
`int()` (rather than merely "not entirely digits"), the sweep writes no
record and propagates no exception: the sort key raises before the write
loop starts, the exception is absorbed, and the store (labels and write
log alike) is returned unchanged. -/
theorem C9_sweep_abort_amended (env : Env) (deck : Nat) (st : St)
    (h : ∃ cid ∈ env.deckCids deck, sortKeyOfLabel? (st.label cid) = none) :
    reorder_deck_ids env deck st = st := by
  unfold reorder_deck_ids
  rw [reorderKeys_eq_none h]

def envW9 : Env := ⟨fun _ => "G".data, fun _ => [0, 1], fun _ => 0, []⟩

def stW9 : St :=
  ⟨fun n => if n = 0 then some "G@00001".data
    else if n = 1 then some "G@banana".data else none, []⟩

/-- Witness for C9 (amended): one well-labeled record plus one whose
suffix `int` rejects; the sweep leaves the store untouched. -/
theorem C9_sweep_abort_amended_witness :
    (∃ cid ∈ envW9.deckCids 0, sortKeyOfLabel? (stW9.label cid) = none) ∧
    reorder_deck_ids envW9 0 stW9 = stW9 :=
  ⟨by decide, C9_sweep_abort_amended envW9 0 stW9 (by decide)⟩

/-! ## Claim C8 -/

def envC8 : Env := ⟨fun _ => "G".data, fun _ => [0], fun _ => 0, []⟩

def stC8 : St := ⟨fun _ => none, []⟩

/-- C8 counterexample: a one-record group whose record lacks the label
field.  The claim says a single max-index lookup rewrites and persists
the label of every record in the group; the code's embedded sweep aborts
on the missing field, so the lookup performs zero writes and leaves the
record untouched. -/
theorem C8_get_max_counterexample :
    (get_max_deck_index envC8 0 stC8).1.writes = [] ∧
    (get_max_deck_index envC8 0 stC8).1.label 0 = none ∧
    (get_max_deck_index envC8 0 stC8).2 = 0 := by decide

/-- C8 (amended): `get_max_deck_index` is indeed not a pure query: it
always runs the full sweep first (its returned store is exactly the
sweep's), and whenever every record's label `int`-parses, the lookup's
side effect persists a write for every record of the group; when some
label is absent or unparseable, however, the sweep aborts and the lookup
writes nothing (see the counterexample). -/
theorem C8_get_max_amended (env : Env) (deck : Nat) (st : St)
    (hnd : (env.deckCids deck).Nodup)
    (hkeys : ∀ cid ∈ env.deckCids deck,
      (sortKeyOfLabel? (st.label cid)).isSome = true) :
    (get_max_deck_index env deck st).1 = reorder_deck_ids env deck st ∧
    ∃ delta, (get_max_deck_index env deck st).1.writes = st.writes ++ delta ∧
      ∀ cid ∈ env.deckCids deck, ∃ s, (cid, s) ∈ delta := by
  refine ⟨rfl, ?_⟩
  obtain ⟨order, hperm, _, _, hw, _, _⟩ :=
    reorder_sweep_spec (fun c => (sortKeyOfLabel? (st.label c)).getD 0) hnd
      (fun c hc => eq_some_getD (hkeys c hc))
  refine ⟨sweepWrites st 1 order, hw, ?_⟩
  intro cid hc
  exact sweepWrites_mem st (hperm.symm.subset hc)

def envW8 : Env := ⟨fun _ => "G".data, fun _ => [7], fun _ => 0, []⟩

def stW8 : St := ⟨fun n => if n = 7 then some "G@00003".data else none, []⟩

/-- Witness for C8 (amended) at a concrete one-record group. -/
theorem C8_get_max_amended_witness :
    (envW8.deckCids 0).Nodup ∧
    (∀ cid ∈ envW8.deckCids 0,
      (sortKeyOfLabel? (stW8.label cid)).isSome = true) ∧
    ((get_max_deck_index envW8 0 stW8).1 = reorder_deck_ids envW8 0 stW8 ∧
    ∃ delta, (get_max_deck_index envW8 0 stW8).1.writes = stW8.writes ++ delta ∧
      ∀ cid ∈ envW8.deckCids 0, ∃ s, (cid, s) ∈ delta) :=
  ⟨by decide, by decide, C8_get_max_amended envW8 0 stW8 (by decide) (by decide)⟩

/-! ## Claim C6 -/

def envC6 : Env := ⟨fun _ => "G".data, fun _ => [0], fun _ => 0, []⟩

def stC6 : St := ⟨fun n => if n = 0 then some "G@-3".data else none, []⟩

/-- C6 counterexample: a group with one record labeled `G@-3` has zero
valid indices (the suffix `-3` is not digits, so the max-index scan
ignores it), yet `add_deck_index_field` does not produce `G@00001`: the
embedded sweep first rewrites the record to `G@00001` (because
`int("-3")` parses), the post-sweep scan then finds max 1, and the new
record is assigned `G@00002`. -/
theorem C6_next_index_counterexample :
    stC6.label 0 = some "G@-3".data ∧
    isDigits (afterLastAt "G@-3".data) = false ∧
    (add_deck_index_field envC6 0 stC6).2 = "G@00002".data := by decide

/-- C6 (amended): `add_deck_index_field` first runs the sweep (via
`get_max_deck_index`) and then assigns `max_index + 1`, where the max is
taken over the *post-sweep* store; a group whose post-sweep store has
zero valid indices yields index 1 and the label `name@00001` (the
pre-sweep store having zero valid indices is not sufficient, see the
counterexample); none of these operations raise. -/
theorem C6_next_index_amended (env : Env) (deck : Nat) (st : St) :
    add_deck_index_field env deck st =
      (reorder_deck_ids env deck st,
        env.deckName deck ++ '@' ::
          zfill 5 (pyStr (scanMaxIndex env deck (reorder_deck_ids env deck st) + 1))) ∧
    (scanMaxIndex env deck (reorder_deck_ids env deck st) = 0 →
      (add_deck_index_field env deck st).2 = env.deckName deck ++ "@00001".data) := by
  constructor
  · rfl
  · intro h0
    show env.deckName deck ++ '@' ::
      zfill 5 (pyStr (scanMaxIndex env deck (reorder_deck_ids env deck st) + 1)) = _
    rw [h0]
    rfl

def envW6 : Env := ⟨fun _ => "Math".data, fun _ => [], fun _ => 0, []⟩

def stW6 : St := ⟨fun _ => none, []⟩

/-- Witness for C6 (amended): an empty group yields `Math@00001`. -/
theorem C6_next_index_amended_witness :
    (add_deck_index_field envW6 0 stW6 =
      (reorder_deck_ids envW6 0 stW6,
        envW6.deckName 0 ++ '@' ::
          zfill 5 (pyStr (scanMaxIndex envW6 0 (reorder_deck_ids envW6 0 stW6) + 1))) ∧
    (scanMaxIndex envW6 0 (reorder_deck_ids envW6 0 stW6) = 0 →
      (add_deck_index_field envW6 0 stW6).2 = envW6.deckName 0 ++ "@00001".data)) ∧
    (add_deck_index_field envW6 0 stW6).2 = "Math@00001".data :=
  ⟨C6_next_index_amended envW6 0 stW6,
    by rw [(C6_next_index_amended envW6 0 stW6).2 (by decide)]; decide⟩

/-! ## Claim C2 -/

def stC2 : St :=
  ⟨fun n => if n = 0 then some "abc".data
    else if n = 1 then some "abc".data else none, []⟩

/-- C2 counterexample: both records carry the malformed label `abc`
(no `@`, so `parse` fails on both).  The claim says swap must return
`false` and modify neither record; the code compares the `rsplit`
pseudo-prefixes (`abc` = `abc`), proceeds, rewrites both labels to
`abc@abc`, persists both, and returns `true`. -/
theorem C2_swap_guard_counterexample :
    parseLabel "abc".data = none ∧
    (update_deck_ids_after_swap 0 1 stC2).toOption.map (fun r => r.2) = some true ∧
    (update_deck_ids_after_swap 0 1 stC2).toOption.map (fun r => r.1.label 0) =
      some (some "abc@abc".data) ∧
    (update_deck_ids_after_swap 0 1 stC2).toOption.map (fun r => r.1.label 1) =
      some (some "abc@abc".data) := by decide

/-- C2 (amended): swap returns `false` and leaves the store (labels and
write log) unmodified exactly when both labels are present and the text
before the last `@` (the whole label when it has no `@`) differs between
them; when either label is absent, swap raises KeyError instead of
returning `false`, and present malformed labels are not specially
guarded (they are swapped whenever the computed prefixes coincide, see
the counterexample). -/
theorem C2_swap_guard_amended (st : St) (a b : Nat) :
    (∀ la lb, st.label a = some la → st.label b = some lb →
      beforeLastAt la ≠ beforeLastAt lb →
      update_deck_ids_after_swap a b st = .ok (st, false)) ∧
    (st.label a = none ∨ st.label b = none →
      update_deck_ids_after_swap a b st = .error ()) := by
  constructor
  · intro la lb ha hb hne
    unfold update_deck_ids_after_swap
    rw [ha, hb]
    dsimp only
    rw [if_pos hne]
  · intro h
    cases hla : st.label a with
    | none =>
      unfold update_deck_ids_after_swap
      rw [hla]
    | some la =>
      cases hlb : st.label b with
      | none =>
        unfold update_deck_ids_after_swap
        rw [hla, hlb]
      | some lb =>
        rcases h with h | h
        · rw [hla] at h; cases h
        · rw [hlb] at h; cases h

def stW2 : St :=
  ⟨fun n => if n = 0 then some "A@00001".data
    else if n = 1 then some "B@00002".data else none, []⟩

/-- Witness for C2 (amended): cross-group refusal and KeyError on a
record without the field. -/
theorem C2_swap_guard_amended_witness :
    update_deck_ids_after_swap 0 1 stW2 = .ok (stW2, false) ∧
    update_deck_ids_after_swap 0 2 stW2 = .error () :=
  ⟨(C2_swap_guard_amended stW2 0 1).1 "A@00001".data "B@00002".data
      (by decide) (by decide) (by decide),
    (C2_swap_guard_amended stW2 0 2).2 (Or.inr (by decide))⟩

/-! ## Claim C3 -/

/-- C3: for every pair of records whose labels parse with equal prefixes,
swap returns `true`, leaves both prefixes unchanged, exchanges exactly
the two numeric suffixes (a receives b's former suffix and index, and
vice versa), and persists both records (two writes, a then b). -/
theorem C3_swap_success (st : St) (a b : Nat) (la lb p : Str) (na nb : Nat)
    (ha : st.label a = some la) (hb : st.label b = some lb)
    (hpa : parseLabel la = some (p, na)) (hpb : parseLabel lb = some (p, nb)) :
    ∃ st', update_deck_ids_after_swap a b st = .ok (st', true) ∧
      st'.label a = some (p ++ '@' :: afterLastAt lb) ∧
      st'.label b = some (p ++ '@' :: afterLastAt la) ∧
      (st'.label a).bind parseLabel = some (p, nb) ∧
      (st'.label b).bind parseLabel = some (p, na) ∧
      st'.writes = st.writes ++
        [(a, p ++ '@' :: afterLastAt lb), (b, p ++ '@' :: afterLastAt la)] := by
  obtain ⟨da, hla, hda, hdda, hva⟩ := parseLabel_eq_some.mp hpa
  obtain ⟨db, hlb, hdb, hddb, hvb⟩ := parseLabel_eq_some.mp hpb
  have hba : beforeLastAt la = p := by rw [hla, beforeLastAt_append hda]
  have hbb : beforeLastAt lb = p := by rw [hlb, beforeLastAt_append hdb]
  have haa : afterLastAt la = da := by rw [hla, afterLastAt_append hda]
  have hab : afterLastAt lb = db := by rw [hlb, afterLastAt_append hdb]
  have hswap : update_deck_ids_after_swap a b st =
      .ok (updateNote (updateNote st a (p ++ '@' :: afterLastAt lb)) b
        (p ++ '@' :: afterLastAt la), true) := by
    unfold update_deck_ids_after_swap
    rw [ha, hb]
    dsimp only
    rw [if_neg (show ¬ beforeLastAt la ≠ beforeLastAt lb from
      not_not_intro (by rw [hba, hbb])), hba, hbb]
  refine ⟨_, hswap, ?_, ?_, ?_, ?_, ?_⟩
  · by_cases hab' : a = b
    · subst hab'
      have : la = lb := by
        have := ha.symm.trans hb
        exact Option.some.inj this
      subst this
      show (if a = a then some (p ++ '@' :: afterLastAt la) else _) = _
      rw [if_pos rfl]
    · show (if a = b then some (p ++ '@' :: afterLastAt la)
        else (if a = a then some (p ++ '@' :: afterLastAt lb) else st.label a)) = _
      rw [if_neg hab', if_pos rfl]
  · show (if b = b then some (p ++ '@' :: afterLastAt la) else _) = _
    rw [if_pos rfl]
  · by_cases hab' : a = b
    · subst hab'
      have hll : la = lb := Option.some.inj (ha.symm.trans hb)
      subst hll
      have hdab : da = db := haa.symm.trans hab
      show ((if a = a then some (p ++ '@' :: afterLastAt la) else _ : Option Str)).bind
        parseLabel = _
      rw [if_pos rfl]
      show parseLabel (p ++ '@' :: afterLastAt la) = _
      rw [haa, parseLabel_eq_some]
      exact ⟨da, rfl, hda, hdda, by rw [hdab]; exact hvb⟩
    · show ((if a = b then some (p ++ '@' :: afterLastAt la)
        else (if a = a then some (p ++ '@' :: afterLastAt lb) else st.label a) :
          Option Str)).bind parseLabel = _
      rw [if_neg hab', if_pos rfl]
      show parseLabel (p ++ '@' :: afterLastAt lb) = _
      rw [hab, parseLabel_eq_some]
      exact ⟨db, rfl, hdb, hddb, hvb⟩
  · show ((if b = b then some (p ++ '@' :: afterLastAt la) else _ : Option Str)).bind
      parseLabel = _
    rw [if_pos rfl]
    show parseLabel (p ++ '@' :: afterLastAt la) = _
    rw [haa, parseLabel_eq_some]
    exact ⟨da, rfl, hda, hdda, hva⟩
  · show (st.writes ++ [(a, p ++ '@' :: afterLastAt lb)]) ++
      [(b, p ++ '@' :: afterLastAt la)] = _
    rw [List.append_assoc]
    rfl

def stW3 : St :=
  ⟨fun n => if n = 0 then some "History@00002".data
    else if n = 1 then some "History@00003".data else none, []⟩

/-- Witness for C3 at the spec's example scenario 3. -/
theorem C3_swap_success_witness :
    ∃ st', update_deck_ids_after_swap 0 1 stW3 = .ok (st', true) ∧
      st'.label 0 = some ("History".data ++ '@' :: afterLastAt "History@00003".data) ∧
      st'.label 1 = some ("History".data ++ '@' :: afterLastAt "History@00002".data) ∧
      (st'.label 0).bind parseLabel = some ("History".data, 3) ∧
      (st'.label 1).bind parseLabel = some ("History".data, 2) ∧
      st'.writes = stW3.writes ++
        [(0, "History".data ++ '@' :: afterLastAt "History@00003".data),
          (1, "History".data ++ '@' :: afterLastAt "History@00002".data)] :=
  C3_swap_success stW3 0 1 "History@00002".data "History@00003".data
    "History".data 2 3 (by decide) (by decide) (by decide) (by decide)

/-! ## Claim C7 -/

/-- C7: codec round-trip.  For every prefix and every index at least 1,
parsing the formatted label (split at the last `@`, digit suffix read as
an integer) recovers exactly the prefix and the index; formatting
zero-pads the index to width 5, and wider values render in full without
truncation. -/
theorem C7_codec_roundtrip (p : Str) (i : Nat) (hi : 1 ≤ i) :
    parseLabel (formatLabel p i) = some (p, i) ∧
    (i ≤ 99999 → (zfill 5 (pyStr i)).length = 5) ∧
    (100000 ≤ i → zfill 5 (pyStr i) = pyStr i) := by
  refine ⟨parseLabel_formatLabel p i, ?_, ?_⟩
  · intro h
    have h5 : (10 : Nat) ^ 5 = 100000 := by norm_num
    exact zfill_length (pyStr_length_le (by norm_num) (by omega))
  · intro h
    apply zfill_eq_of_le
    have h5 : (10 : Nat) ^ 5 = 100000 := by norm_num
    have := pyStr_length_ge (n := i) (w := 5) (by omega)
    omega

/-- Witness for C7 at prefix `Vocabulary` and index 3. -/
theorem C7_codec_roundtrip_witness :
    1 ≤ 3 ∧
    (parseLabel (formatLabel "Vocabulary".data 3) = some ("Vocabulary".data, 3) ∧
    (3 ≤ 99999 → (zfill 5 (pyStr 3)).length = 5) ∧
    (100000 ≤ 3 → zfill 5 (pyStr 3) = pyStr 3)) :=
  ⟨by decide, C7_codec_roundtrip "Vocabulary".data 3 (by decide)⟩

/-! ## Claim C10 -/

/-- C10: the move operations are total only when the id is present in the
cached visible sequence: for an id not in the sequence both raise (the
`list.index` ValueError, modelled by `.error`) instead of returning
`false`, while for an id at the edge in the requested direction they
return `false` and leave the sequence and the store unchanged. -/
theorem C10_move_guard (st : St) (sel : Nat) (vis : List Nat) :
    (sel ∉ vis → move_card_up sel vis st = .error () ∧
      move_card_down sel vis st = .error ()) ∧
    (vis.findIdx? (fun x => x == sel) = some 0 →
      move_card_up sel vis st = .ok (false, vis, st)) ∧
    (vis.findIdx? (fun x => x == sel) = some (vis.length - 1) →
      move_card_down sel vis st = .ok (false, vis, st)) := by
  refine ⟨?_, ?_, ?_⟩
  · intro hmem
    have hnone : vis.findIdx? (fun x => x == sel) = none := by
      rw [List.findIdx?_eq_none_iff]
      intro x hx
      simp only [beq_eq_false_iff_ne, ne_eq]
      exact fun he => hmem (he ▸ hx)
    constructor
    · unfold move_card_up
      rw [hnone]
    · unfold move_card_down
      rw [hnone]
  · intro hidx
    unfold move_card_up
    rw [hidx]
    dsimp only
    rw [if_neg (lt_irrefl 0)]
  · intro hidx
    unfold move_card_down
    rw [hidx]
    dsimp only
    rw [if_neg (lt_irrefl (vis.length - 1))]

def stW10 : St := ⟨fun _ => none, []⟩

/-- Witness for C10 on the visible sequence `[5, 6]`. -/
theorem C10_move_guard_witness :
    move_card_up 7 [5, 6] stW10 = .error () ∧
    move_card_down 7 [5, 6] stW10 = .error () ∧
    move_card_up 5 [5, 6] stW10 = .ok (false, [5, 6], stW10) ∧
    move_card_down 6 [5, 6] stW10 = .ok (false, [5, 6], stW10) :=
  ⟨((C10_move_guard stW10 7 [5, 6]).1 (by decide)).1,
    ((C10_move_guard stW10 7 [5, 6]).1 (by decide)).2,
    (C10_move_guard stW10 5 [5, 6]).2.1 (by decide),
    (C10_move_guard stW10 6 [5, 6]).2.2 (by decide)⟩

/-! ## Reconciliation infrastructure -/

/-- The deck name a note resolves to inside `verify_and_add_deck_ids`
(`mw.col.decks.get(card.current_deck_id())['name']`). -/
def className (env : Env) (n : Nat) : Str := env.deckName (env.noteDeck n)

/-- The notes the reconciliation loop counts for class `w`: field present
and deck name `w`. -/
def presentIn (st : St) (env : Env) (w : Str) (m : Nat) : Bool :=
  (st.label m).isSome && (className env m == w)

theorem getCount_nil (w : Str) : getCount [] w = none := rfl

theorem getCount_cons_pos (p : Str × Nat) (cs : Counters) {w' : Str}
    (h : (p.1 == w') = true) : getCount (p :: cs) w' = some p.2 := by
  unfold getCount
  rw [List.find?_cons]
  rw [h]
  rfl

theorem getCount_cons_neg (p : Str × Nat) (cs : Counters) {w' : Str}
    (h : (p.1 == w') = false) : getCount (p :: cs) w' = getCount cs w' := by
  unfold getCount
  rw [List.find?_cons]
  rw [h]

theorem getCount_setCount (cs : Counters) (w : Str) (k : Nat) (w' : Str) :
    getCount (setCount cs w k) w' = if w' = w then some k else getCount cs w' := by
  induction cs with
  | nil =>
    show getCount [(w, k)] w' = _
    by_cases h : w' = w
    · subst h
      rw [if_pos rfl, getCount_cons_pos _ _ (by simp)]
    · rw [if_neg h, getCount_cons_neg _ _ (by simpa using fun he => h he.symm)]
  | cons p rest ih =>
    show getCount (if p.1 == w then (w, k) :: rest else p :: setCount rest w k) w' = _
    by_cases hpw : (p.1 == w) = true
    · rw [if_pos hpw]
      by_cases hw' : w' = w
      · subst hw'
        rw [if_pos rfl, getCount_cons_pos _ _ (by simp)]
      · have hp1 : p.1 = w := by simpa using hpw
        rw [if_neg hw', getCount_cons_neg _ _ (by simpa using fun he => hw' he.symm),
          getCount_cons_neg _ _ (by simpa [hp1] using fun he => hw' he.symm)]
    · rw [if_neg hpw]
      by_cases hpw' : (p.1 == w') = true
      · have hw'w : ¬ w' = w := fun he => hpw (he ▸ hpw')
        rw [if_neg hw'w, getCount_cons_pos _ _ hpw', getCount_cons_pos _ _ hpw']
      · have hf : (p.1 == w') = false := by simpa using hpw'
        rw [getCount_cons_neg _ _ hf, ih]
        by_cases hw' : w' = w
        · rw [if_pos hw', if_pos hw']
        · rw [if_neg hw', if_neg hw', getCount_cons_neg _ _ hf]

theorem count_match_eq_getD (o : Option Nat) :
    (match o with | none => 1 | some k => k + 1) = o.getD 0 + 1 := by
  cases o <;> rfl

theorem verifyLoop_cons_absent (env : Env) {st : St} {n : Nat}
    (hn : st.label n = none) (rest : List Nat) (cs : Counters) :
    verifyLoop env (n :: rest) cs st = verifyLoop env rest cs st := by
  rw [verifyLoop.eq_def]
  dsimp only
  rw [hn]

theorem verifyLoop_cons_present (env : Env) {st : St} {n : Nat} {field : Str}
    (hs : st.label n = some field) (rest : List Nat) (cs : Counters) :
    verifyLoop env (n :: rest) cs st =
      verifyLoop env rest
        (setCount cs (className env n) ((getCount cs (className env n)).getD 0 + 1))
        (if field = expectedLabel (className env n)
            ((getCount cs (className env n)).getD 0 + 1)
          then st
          else updateNote st n (expectedLabel (className env n)
            ((getCount cs (className env n)).getD 0 + 1))) := by
  unfold className
  rw [verifyLoop.eq_def]
  dsimp only
  rw [hs]
  dsimp only
  rw [count_match_eq_getD]
  by_cases hfe : field = expectedLabel (env.deckName (env.noteDeck n))
      ((getCount cs (env.deckName (env.noteDeck n))).getD 0 + 1)
  · rw [if_pos hfe, if_pos hfe]
  · rw [if_neg hfe, if_neg hfe]

theorem verifyLoop_append (env : Env) :
    ∀ (l₁ l₂ : List Nat) (cs : Counters) (st : St),
    verifyLoop env (l₁ ++ l₂) cs st =
      verifyLoop env l₂ (verifyLoop env l₁ cs st).1 (verifyLoop env l₁ cs st).2
  | [], l₂, cs, st => rfl
  | n :: l₁', l₂, cs, st => by
    cases hn : st.label n with
    | none =>
      rw [List.cons_append, verifyLoop_cons_absent env hn,
        verifyLoop_cons_absent env hn, verifyLoop_append env l₁' l₂ cs st]
    | some field =>
      rw [List.cons_append, verifyLoop_cons_present env hn,
        verifyLoop_cons_present env hn, verifyLoop_append env l₁' l₂]

theorem verifyLoop_writes_mono (env : Env) :
    ∀ (l : List Nat) (cs : Counters) (st : St),
    ∃ d, (verifyLoop env l cs st).2.writes = st.writes ++ d
  | [], cs, st => ⟨[], by simp [verifyLoop]⟩
  | n :: rest, cs, st => by
    cases hn : st.label n with
    | none =>
      rw [verifyLoop_cons_absent env hn]
      exact verifyLoop_writes_mono env rest cs st
    | some field =>
      rw [verifyLoop_cons_present env hn]
      by_cases hfe : field = expectedLabel (className env n)
          ((getCount cs (className env n)).getD 0 + 1)
      · rw [if_pos hfe]
        exact verifyLoop_writes_mono env rest _ st
      · rw [if_neg hfe]
        obtain ⟨d, hd⟩ := verifyLoop_writes_mono env rest
          (setCount cs (className env n) ((getCount cs (className env n)).getD 0 + 1))
          (updateNote st n (expectedLabel (className env n)
            ((getCount cs (className env n)).getD 0 + 1)))
        refine ⟨(n, expectedLabel (className env n)
          ((getCount cs (className env n)).getD 0 + 1)) :: d, ?_⟩
        rw [hd]
        show (st.writes ++ [_]) ++ d = _
        rw [List.append_assoc]
        rfl

theorem filter_presentIn_congr {env : Env} {st st' : St} {l : List Nat}
    (h : ∀ m ∈ l, st'.label m = st.label m) (w : Str) :
    l.filter (presentIn st' env w) = l.filter (presentIn st env w) :=
  List.filter_congr (fun m hm => by unfold presentIn; rw [h m hm])

/-- Run characterization of the reconciliation loop: notes outside the
list keep their labels, absent-field notes stay absent, and the note at
position `k` of the class-`w` present sublist ends with label
`w@zfill5(counter₀(w) + k + 1)`. -/
theorem verifyLoop_spec (env : Env) :
    ∀ (l : List Nat) (cs : Counters) (st : St), l.Nodup →
    (∀ m, m ∉ l → (verifyLoop env l cs st).2.label m = st.label m)
    ∧ (∀ m ∈ l, st.label m = none → (verifyLoop env l cs st).2.label m = none)
    ∧ (∀ (w : Str) (k : Nat) (m : Nat),
        (l.filter (presentIn st env w))[k]? = some m →
        (verifyLoop env l cs st).2.label m =
          some (expectedLabel w ((getCount cs w).getD 0 + k + 1))) := by
  intro l
  induction l with
  | nil =>
    intro cs st _
    refine ⟨fun m _ => rfl, fun m hm => absurd hm (List.not_mem_nil m),
      fun w k m hget => ?_⟩
    rw [List.filter_nil] at hget
    simp at hget
  | cons n rest ih =>
    intro cs st hnd
    have hcr : n ∉ rest := (List.nodup_cons.mp hnd).1
    have hndr : rest.Nodup := (List.nodup_cons.mp hnd).2
    cases hn : st.label n with
    | none =>
      rw [verifyLoop_cons_absent env hn]
      obtain ⟨iha, ihb, ihc⟩ := ih cs st hndr
      refine ⟨?_, ?_, ?_⟩
      · intro m hm
        exact iha m (fun hmr => hm (List.mem_cons_of_mem n hmr))
      · intro m hm hnone
        rcases List.mem_cons.mp hm with rfl | hmr
        · rw [iha m hcr]
          exact hnone
        · exact ihb m hmr hnone
      · intro w k m hget
        have hfn : presentIn st env w n = false := by
          unfold presentIn
          rw [hn]
          rfl
        have hfe : (n :: rest).filter (presentIn st env w) =
            rest.filter (presentIn st env w) := by
          rw [List.filter_cons, hfn]
          simp
        rw [hfe] at hget
        exact ihc w k m hget
    | some field =>
      rw [verifyLoop_cons_present env hn rest cs]
      set w0 := className env n with hw0
      set c0 := (getCount cs w0).getD 0 + 1 with hc0
      set st' := if field = expectedLabel w0 c0 then st
        else updateNote st n (expectedLabel w0 c0) with hst'
      set cs' := setCount cs w0 c0 with hcs'
      have hagree : ∀ m, m ≠ n → st'.label m = st.label m := by
        intro m hm
        rw [hst']
        by_cases hfe : field = expectedLabel w0 c0
        · rw [if_pos hfe]
        · rw [if_neg hfe]
          show (if m = n then some (expectedLabel w0 c0) else st.label m) = st.label m
          rw [if_neg hm]
      have hlab_n : st'.label n = some (expectedLabel w0 c0) := by
        rw [hst']
        by_cases hfe : field = expectedLabel w0 c0
        · rw [if_pos hfe, hn, hfe]
        · rw [if_neg hfe]
          show (if n = n then some (expectedLabel w0 c0) else st.label n) = _
          rw [if_pos rfl]
      have hagreer : ∀ m ∈ rest, st'.label m = st.label m :=
        fun m hm => hagree m (fun he => hcr (he ▸ hm))
      obtain ⟨iha, ihb, ihc⟩ := ih cs' st' hndr
      refine ⟨?_, ?_, ?_⟩
      · intro m hm
        have hm' : m ∉ rest := fun h => hm (List.mem_cons_of_mem _ h)
        have hmn : m ≠ n := fun he =>
          hm (by rw [he]; exact List.mem_cons_self n rest)
        rw [iha m hm', hagree m hmn]
      · intro m hm hnone
        rcases List.mem_cons.mp hm with rfl | hmr
        · rw [hn] at hnone
          cases hnone
        · refine ihb m hmr ?_
          rw [hagreer m hmr, hnone]
      · intro w k m hget
        by_cases hw : w = w0
        · subst hw
          have hfn : presentIn st env w0 n = true := by
            unfold presentIn
            rw [hn, ← hw0]
            simp
          have hfe : (n :: rest).filter (presentIn st env w0) =
              n :: rest.filter (presentIn st env w0) := by
            rw [List.filter_cons, hfn]
            simp
          rw [hfe] at hget
          have hfr : rest.filter (presentIn st env w0) =
              rest.filter (presentIn st' env w0) :=
            (filter_presentIn_congr hagreer w0).symm
          cases k with
          | zero =>
            rw [List.getElem?_cons_zero] at hget
            have hm : m = n := (Option.some.inj hget).symm
            subst hm
            rw [iha m hcr, hlab_n]
          | succ k =>
            rw [List.getElem?_cons_succ, hfr] at hget
            rw [ihc w0 k m hget]
            have hgc : getCount cs' w0 = some c0 := by
              rw [hcs', getCount_setCount, if_pos rfl]
            rw [hgc]
            have harith : (some c0).getD 0 + k + 1 =
                (getCount cs w0).getD 0 + (k + 1) + 1 := by
              show c0 + k + 1 = _
              rw [hc0]
              omega
            rw [harith]
        · have hbne : (w0 == w) = false := by
            simpa using fun he => hw he.symm
          have hfn : presentIn st env w n = false := by
            unfold presentIn
            rw [hn, ← hw0, hbne]
            rfl
          have hfe : (n :: rest).filter (presentIn st env w) =
              rest.filter (presentIn st env w) := by
            rw [List.filter_cons, hfn]
            simp
          rw [hfe, (filter_presentIn_congr hagreer w).symm] at hget
          rw [ihc w k m hget]
          have hgc : getCount cs' w = getCount cs w := by
            rw [hcs', getCount_setCount, if_neg hw]
          rw [hgc]

/-- If along `l` every class-`w` present note already carries exactly the
label the counters predict for its position, the reconciliation loop
writes nothing (the store comes back unchanged) and each class counter
advances by its class sublist length. -/
theorem verifyLoop_no_writes (env : Env) :
    ∀ (l : List Nat) (cs : Counters) (st : St), l.Nodup →
    (∀ (w : Str) (k : Nat) (m : Nat),
      (l.filter (presentIn st env w))[k]? = some m →
      st.label m = some (expectedLabel w ((getCount cs w).getD 0 + k + 1))) →
    (verifyLoop env l cs st).2 = st
    ∧ (∀ w : Str, (getCount (verifyLoop env l cs st).1 w).getD 0 =
        (getCount cs w).getD 0 + (l.filter (presentIn st env w)).length) := by
  intro l
  induction l with
  | nil =>
    intro cs st _ _
    exact ⟨rfl, fun w => by rw [List.filter_nil]; rfl⟩
  | cons n rest ih =>
    intro cs st hnd hlab
    have hcr : n ∉ rest := (List.nodup_cons.mp hnd).1
    have hndr : rest.Nodup := (List.nodup_cons.mp hnd).2
    cases hn : st.label n with
    | none =>
      rw [verifyLoop_cons_absent env hn]
      have hfeq : ∀ w, (n :: rest).filter (presentIn st env w) =
          rest.filter (presentIn st env w) := by
        intro w
        rw [List.filter_cons,
          show presentIn st env w n = false from by unfold presentIn; rw [hn]; rfl]
        simp
      obtain ⟨h1, h2⟩ := ih cs st hndr
        (fun w k m hget => hlab w k m (by rw [hfeq w]; exact hget))
      exact ⟨h1, fun w => by rw [hfeq w]; exact h2 w⟩
    | some field =>
      set w0 := className env n with hw0
      have hfn : presentIn st env w0 n = true := by
        unfold presentIn
        rw [hn, ← hw0]
        simp
      have hfe : (n :: rest).filter (presentIn st env w0) =
          n :: rest.filter (presentIn st env w0) := by
        rw [List.filter_cons, hfn]
        simp
      have hhead := hlab w0 0 n (by rw [hfe, List.getElem?_cons_zero])
      have hfield : field = expectedLabel w0 ((getCount cs w0).getD 0 + 1) :=
        Option.some.inj (hn.symm.trans hhead)
      have hfother : ∀ w, ¬ w = w0 → (n :: rest).filter (presentIn st env w) =
          rest.filter (presentIn st env w) := by
        intro w hw
        rw [List.filter_cons,
          show presentIn st env w n = false from by
            unfold presentIn
            rw [hn, ← hw0,
              show (w0 == w) = false from by simpa using fun he => hw he.symm]
            rfl]
        simp
      rw [verifyLoop_cons_present env hn rest cs, ← hw0, if_pos hfield]
      set cs2 := setCount cs w0 ((getCount cs w0).getD 0 + 1) with hcs2
      have hgc2 : getCount cs2 w0 = some ((getCount cs w0).getD 0 + 1) := by
        rw [hcs2, getCount_setCount, if_pos rfl]
      have hnext : ∀ (w : Str) (k m : Nat),
          (rest.filter (presentIn st env w))[k]? = some m →
          st.label m = some (expectedLabel w ((getCount cs2 w).getD 0 + k + 1)) := by
        intro w k m hget
        by_cases hw : w = w0
        · subst hw
          rw [hlab w0 (k + 1) m (by rw [hfe, List.getElem?_cons_succ]; exact hget)]
          rw [hgc2]
          have harith : (getCount cs w0).getD 0 + (k + 1) + 1 =
              (some ((getCount cs w0).getD 0 + 1)).getD 0 + k + 1 := by
            show _ = (getCount cs w0).getD 0 + 1 + k + 1
            omega
          rw [harith]
        · rw [hlab w k m (by rw [hfother w hw]; exact hget),
            show getCount cs2 w = getCount cs w from by
              rw [hcs2, getCount_setCount, if_neg hw]]
      obtain ⟨h1, h2⟩ := ih cs2 st hndr hnext
      refine ⟨h1, ?_⟩
      intro w
      by_cases hw : w = w0
      · subst hw
        rw [hfe, List.length_cons, h2 w0, hgc2]
        show (getCount cs w0).getD 0 + 1 + (rest.filter (presentIn st env w0)).length = _
        omega
      · rw [hfother w hw, h2 w,
          show getCount cs2 w = getCount cs w from by
            rw [hcs2, getCount_setCount, if_neg hw]]

/-! ## Order transfer helpers for reconciliation idempotence -/

/-- Propositional form of the Python string order, for Mathlib's sorted
lemmas. -/
def strLe (a b : Str) : Prop := strLeB a b = true

instance : IsAntisymm Str strLe := ⟨fun _ _ h1 h2 => strLeB_antisymm h1 h2⟩

instance : IsTrans Str strLe := ⟨fun _ _ _ h1 h2 => strLeB_trans h1 h2⟩

theorem strLeB_of_lt {a b : Str} (h : strLtB a b = true) : strLeB a b = true :=
  strLeB_eq_true_iff.mpr (strLtB_asymm h)

theorem strLeB_append_left (p x y : Str) :
    strLeB (p ++ x) (p ++ y) = strLeB x y := by
  unfold strLeB
  rw [strLtB_append_left]

theorem expectedLabel_lt_iff {w : Str} {i j : Nat} (hi : i ≤ 99999)
    (hj : j ≤ 99999) :
    (strLtB (expectedLabel w i) (expectedLabel w j) = true ↔ i < j) := by
  have h5 : (10 : Nat) ^ 5 = 100000 := by norm_num
  unfold expectedLabel
  rw [show w ++ '@' :: zfill 5 (pyStr i) = (w ++ ['@']) ++ zfill 5 (pyStr i) from by simp,
    show w ++ '@' :: zfill 5 (pyStr j) = (w ++ ['@']) ++ zfill 5 (pyStr j) from by simp,
    strLtB_append_left]
  exact strLtB_zfill_iff (by norm_num) (by omega) (by omega)

theorem expectedLabel_inj {w : Str} {i j : Nat}
    (h : expectedLabel w i = expectedLabel w j) : i = j := by
  unfold expectedLabel at h
  have h2 : '@' :: zfill 5 (pyStr i) = '@' :: zfill 5 (pyStr j) :=
    List.append_cancel_left h
  exact zfill_pyStr_inj (List.cons.inj h2).2

theorem eq_of_perm_of_map_eq {α β : Type} {f : α → β} :
    ∀ {l₁ l₂ : List α}, l₁.Perm l₂ → l₁.map f = l₂.map f →
    (∀ x ∈ l₁, ∀ y ∈ l₁, f x = f y → x = y) → l₁ = l₂ := by
  intro l₁
  induction l₁ with
  | nil =>
    intro l₂ hp _ _
    exact hp.nil_eq
  | cons x t₁ ih =>
    intro l₂ hp hm hinj
    cases l₂ with
    | nil =>
      have := hp.length_eq
      simp at this
    | cons y t₂ =>
      have hfy : f x = f y := (List.cons.inj hm).1
      have hyx : y = x := by
        have hy1 : y ∈ x :: t₁ := hp.symm.subset (List.mem_cons_self y t₂)
        exact hinj y hy1 x (List.mem_cons_self x t₁) hfy.symm
      subst hyx
      have hp' : t₁.Perm t₂ := hp.cons_inv
      have hm' : t₁.map f = t₂.map f := (List.cons.inj hm).2
      rw [ih hp' hm'
        (fun a ha b hb => hinj a (List.mem_cons_of_mem _ ha) b (List.mem_cons_of_mem _ hb))]

/-- C5 (amended): reconciliation is idempotent provided every deck-name
class holds at most 99999 labeled notes: running
`verify_and_add_deck_ids` twice in a row with no intervening external
mutation performs zero record writes during the second run.  With
100000 or more labeled notes in one class, the zero-padded width
overflows and the second run's lexical sort disagrees with the numeric
order, producing fresh writes (see the counterexample). -/
theorem C5_reconcile_idempotent_amended (env : Env) (st : St)
    (hnd : env.allNotes.Nodup)
    (hbound : ∀ n ∈ env.allNotes,
      (env.allNotes.filter (presentIn st env (className env n))).length ≤ 99999) :
    (verify_and_add_deck_ids env (verify_and_add_deck_ids env st)).writes =
      (verify_and_add_deck_ids env st).writes := by
  classical
  set st1 := verify_and_add_deck_ids env st with hst1
  set V := List.insertionSort (noteKeyLe (fun n => (st.label n).getD []))
    env.allNotes with hVdef
  have hst1' : st1 = (verifyLoop env V [] st).2 := rfl
  have hVperm : V.Perm env.allNotes := List.perm_insertionSort _ _
  have hVnd : V.Nodup := hVperm.symm.nodup hnd
  obtain ⟨h1a, h1b, h1c⟩ := verifyLoop_spec env V [] st hVnd
  have hlab1 : ∀ m, st1.label m = (verifyLoop env V [] st).2.label m := by
    intro m
    rw [hst1']
  have hlabels : ∀ (w : Str) (k m : Nat),
      (V.filter (presentIn st env w))[k]? = some m →
      st1.label m = some (expectedLabel w (k + 1)) := by
    intro w k m hget
    rw [hlab1 m, h1c w k m hget]
    have harith : (getCount ([] : Counters) w).getD 0 + k + 1 = k + 1 := by
      show 0 + k + 1 = k + 1
      omega
    rw [harith]
  have hpres : ∀ m, (st1.label m).isSome = (st.label m).isSome := by
    intro m
    by_cases hmV : m ∈ V
    · cases hm : st.label m with
      | none => rw [hlab1 m, h1b m hmV hm]
      | some s =>
        have hmf : m ∈ V.filter (presentIn st env (className env m)) := by
          rw [List.mem_filter]
          refine ⟨hmV, ?_⟩
          unfold presentIn
          rw [hm]
          simp
        obtain ⟨k, hget⟩ := List.getElem?_of_mem hmf
        rw [hlabels (className env m) k m hget]
        rfl
    · rw [hlab1 m, h1a m hmV]
  have hpres' : ∀ (w : Str) (m : Nat),
      presentIn st1 env w m = presentIn st env w m := by
    intro w m
    unfold presentIn
    rw [hpres m]
  have hfiltcong : ∀ (l : List Nat) (w : Str),
      l.filter (presentIn st1 env w) = l.filter (presentIn st env w) :=
    fun l w => List.filter_congr (fun m _ => hpres' w m)
  set V₂ := List.insertionSort (noteKeyLe (fun n => (st1.label n).getD []))
    env.allNotes with hV2def
  have hrun2 : verify_and_add_deck_ids env st1 = (verifyLoop env V₂ [] st1).2 := rfl
  have hV2perm : V₂.Perm env.allNotes := List.perm_insertionSort _ _
  have hV2nd : V₂.Nodup := hV2perm.symm.nodup hnd
  have hfilter_eq : ∀ w : Str,
      V₂.filter (presentIn st env w) = V.filter (presentIn st env w) := by
    intro w
    have hpermf : (V₂.filter (presentIn st env w)).Perm
        (V.filter (presentIn st env w)) :=
      (hV2perm.trans hVperm.symm).filter _
    by_cases hemp : V.filter (presentIn st env w) = []
    · rw [hemp] at hpermf ⊢
      exact hpermf.eq_nil
    · obtain ⟨m₀, hm₀L⟩ := List.exists_mem_of_ne_nil _ hemp
      have hm₀VP := List.mem_filter.mp hm₀L
      have hwcls : className env m₀ = w := by
        have h2 := hm₀VP.2
        unfold presentIn at h2
        rw [Bool.and_eq_true] at h2
        exact eq_of_beq h2.2
      have hblen : (V.filter (presentIn st env w)).length ≤ 99999 := by
        have hb1 := hbound m₀ (hVperm.subset hm₀VP.1)
        rw [hwcls] at hb1
        have hb2 : (V.filter (presentIn st env w)).length =
            (env.allNotes.filter (presentIn st env w)).length :=
          (hVperm.filter _).length_eq
        omega
      have hstrict : List.Pairwise (fun a b =>
          strLtB ((st1.label a).getD []) ((st1.label b).getD []) = true)
          (V.filter (presentIn st env w)) := by
        rw [List.pairwise_iff_getElem]
        intro i j hi hj hij
        have hgi := List.getElem?_eq_getElem hi
        have hgj := List.getElem?_eq_getElem hj
        rw [hlabels w i _ hgi, hlabels w j _ hgj]
        show strLtB (expectedLabel w (i + 1)) (expectedLabel w (j + 1)) = true
        rw [expectedLabel_lt_iff (by omega) (by omega)]
        omega
      have hsorted2 : List.Pairwise (noteKeyLe (fun n => (st1.label n).getD []))
          (V₂.filter (presentIn st env w)) := by
        have hs := List.sorted_insertionSort
          (noteKeyLe (fun n => (st1.label n).getD [])) env.allNotes
        rw [← hV2def] at hs
        exact hs.filter _
      have hmapeq : (V₂.filter (presentIn st env w)).map
            (fun n => (st1.label n).getD []) =
          (V.filter (presentIn st env w)).map (fun n => (st1.label n).getD []) := by
        apply List.eq_of_perm_of_sorted (r := strLe) (hpermf.map _)
        · show List.Pairwise strLe ((V₂.filter (presentIn st env w)).map
            (fun n => (st1.label n).getD []))
          rw [List.pairwise_map]
          exact hsorted2
        · show List.Pairwise strLe ((V.filter (presentIn st env w)).map
            (fun n => (st1.label n).getD []))
          rw [List.pairwise_map]
          exact hstrict.imp (fun h => strLeB_of_lt h)
      have hinj : ∀ x ∈ V₂.filter (presentIn st env w),
          ∀ y ∈ V₂.filter (presentIn st env w),
          (st1.label x).getD [] = (st1.label y).getD [] → x = y := by
        intro x hx y hy hxy
        obtain ⟨i, hgi⟩ := List.getElem?_of_mem (hpermf.subset hx)
        obtain ⟨j, hgj⟩ := List.getElem?_of_mem (hpermf.subset hy)
        have hkx : (st1.label x).getD [] = expectedLabel w (i + 1) := by
          rw [hlabels w i x hgi]
          rfl
        have hky : (st1.label y).getD [] = expectedLabel w (j + 1) := by
          rw [hlabels w j y hgj]
          rfl
        have hij : i = j := by
          have he1 := hkx.symm.trans (hxy.trans hky)
          have he2 := expectedLabel_inj he1
          omega
        subst hij
        exact Option.some.inj (hgi.symm.trans hgj)
      exact eq_of_perm_of_map_eq hpermf hmapeq hinj
  have hhyp : ∀ (w : Str) (k m : Nat),
      (V₂.filter (presentIn st1 env w))[k]? = some m →
      st1.label m = some (expectedLabel w
        ((getCount ([] : Counters) w).getD 0 + k + 1)) := by
    intro w k m hget
    rw [hfiltcong V₂ w, hfilter_eq w] at hget
    rw [hlabels w k m hget]
    have harith : (getCount ([] : Counters) w).getD 0 + k + 1 = k + 1 := by
      show 0 + k + 1 = k + 1
      omega
    rw [harith]
  obtain ⟨hfix, _⟩ := verifyLoop_no_writes env V₂ [] st1 hV2nd hhyp
  rw [hrun2, hfix]

def envW5 : Env := ⟨fun _ => "D".data, fun _ => [], fun _ => 0, [0, 1, 2]⟩

def stW5 : St :=
  ⟨fun n => if n = 0 then some "D@00002".data
    else if n = 1 then some "D@00009".data else none, []⟩

/-- Witness for C5 (amended) on a three-note collection. -/
theorem C5_reconcile_idempotent_amended_witness :
    envW5.allNotes.Nodup ∧
    (∀ n ∈ envW5.allNotes,
      (envW5.allNotes.filter
        (presentIn stW5 envW5 (className envW5 n))).length ≤ 99999) ∧
    (verify_and_add_deck_ids envW5 (verify_and_add_deck_ids envW5 stW5)).writes =
      (verify_and_add_deck_ids envW5 stW5).writes :=
  ⟨by decide, by decide,
    C5_reconcile_idempotent_amended envW5 stW5 (by decide) (by decide)⟩

/-! ## C5 counterexample: width overflow at 100000 notes -/

theorem strict_key_inj (key : Nat → Str) {t : List Nat}
    (hs : List.Pairwise (fun a b => strLtB (key a) (key b) = true) t) :
    ∀ x ∈ t, ∀ y ∈ t, key x = key y → x = y := by
  intro x hx y hy hxy
  obtain ⟨i, hgi⟩ := List.getElem?_of_mem hx
  obtain ⟨j, hgj⟩ := List.getElem?_of_mem hy
  obtain ⟨hi, hxi⟩ := List.getElem?_eq_some.mp hgi
  obtain ⟨hj, hyj⟩ := List.getElem?_eq_some.mp hgj
  rcases Nat.lt_trichotomy i j with hij | hij | hij
  · have hp := (List.pairwise_iff_getElem.mp hs) i j hi hj hij
    rw [hxi, hyj, hxy, strLtB_irrefl] at hp
    simp at hp
  · subst hij
    rw [← hxi, ← hyj]
  · have hp := (List.pairwise_iff_getElem.mp hs) j i hj hi hij
    rw [hxi, hyj, hxy, strLtB_irrefl] at hp
    simp at hp

/-- A strictly key-increasing permutation of the input is the unique
sorted order, so it is what `insertionSort` returns. -/
theorem insertionSort_eq_of_strict (key : Nat → Str) {l t : List Nat}
    (hp : t.Perm l)
    (hs : List.Pairwise (fun a b => strLtB (key a) (key b) = true) t) :
    List.insertionSort (noteKeyLe key) l = t := by
  have hV : (List.insertionSort (noteKeyLe key) l).Perm t :=
    (List.perm_insertionSort _ _).trans hp.symm
  have hsV : List.Pairwise (noteKeyLe key) (List.insertionSort (noteKeyLe key) l) :=
    List.sorted_insertionSort _ _
  have hst : List.Pairwise (noteKeyLe key) t := hs.imp (fun h => strLeB_of_lt h)
  have hinj := strict_key_inj key hs
  have hmap : (List.insertionSort (noteKeyLe key) l).map key = t.map key := by
    apply List.eq_of_perm_of_sorted (r := strLe) (hV.map key)
    · show List.Pairwise strLe ((List.insertionSort (noteKeyLe key) l).map key)
      rw [List.pairwise_map]
      exact hsV
    · show List.Pairwise strLe (t.map key)
      rw [List.pairwise_map]
      exact hst
  exact eq_of_perm_of_map_eq hV hmap
    (fun x hx y hy => hinj x (hV.subset hx) y (hV.subset hy))

def AC5 : List Nat := List.range' 1 10000

def BC5 : List Nat := List.range' 10001 89999

def envC5 : Env := ⟨fun _ => "D".data, fun _ => [], fun _ => 0, AC5 ++ 100000 :: BC5⟩

def labelC5 (n : Nat) : Str := "D".data ++ '@' :: zfill 6 (pyStr n)

def stC5 : St := ⟨fun n => if 1 ≤ n ∧ n ≤ 100000 then some (labelC5 n) else none, []⟩

theorem ABC5_eq : AC5 ++ BC5 = List.range' 1 99999 := by
  have h := List.range'_append 1 10000 89999 1
  norm_num at h
  exact h

theorem TC5_eq : (AC5 ++ BC5) ++ [100000] = List.range' 1 100000 := by
  rw [ABC5_eq]
  have h := List.range'_append 1 99999 1 1
  norm_num at h
  rw [← h]

theorem SC5_perm : (List.range' 1 100000).Perm (AC5 ++ 100000 :: BC5) := by
  rw [← TC5_eq, List.append_assoc]
  exact List.Perm.append_left AC5 (List.perm_append_singleton 100000 BC5)

theorem memS_bounds {n : Nat} (h : n ∈ AC5 ++ 100000 :: BC5) :
    1 ≤ n ∧ n ≤ 100000 := by
  have h2 := SC5_perm.mem_iff.mpr h
  rw [List.mem_range'_1] at h2
  omega

theorem stC5_label_eq {n : Nat} (h1 : 1 ≤ n) (h2 : n ≤ 100000) :
    stC5.label n = some (labelC5 n) := by
  show (if 1 ≤ n ∧ n ≤ 100000 then some (labelC5 n) else none) = _
  rw [if_pos ⟨h1, h2⟩]

theorem labelC5_lt {i j : Nat} (hi : i ≤ 100000) (hj : j ≤ 100000) (hij : i < j) :
    strLtB (labelC5 i) (labelC5 j) = true := by
  have h6 : (10 : Nat) ^ 6 = 1000000 := by norm_num
  unfold labelC5
  rw [show "D".data ++ '@' :: zfill 6 (pyStr i) =
      ("D".data ++ ['@']) ++ zfill 6 (pyStr i) from by simp,
    show "D".data ++ '@' :: zfill 6 (pyStr j) =
      ("D".data ++ ['@']) ++ zfill 6 (pyStr j) from by simp,
    strLtB_append_left]
  exact (strLtB_zfill_iff (by norm_num) (by rw [h6]; omega) (by rw [h6]; omega)).mpr hij

theorem key0_pairwise : List.Pairwise (fun a b =>
    strLtB ((stC5.label a).getD []) ((stC5.label b).getD []) = true)
    (List.range' 1 100000) := by
  rw [List.pairwise_iff_getElem]
  intro i j hi hj hij
  rw [List.length_range'] at hi hj
  rw [List.getElem_range', List.getElem_range']
  have e1 : stC5.label (1 + 1 * i) = some (labelC5 (1 + 1 * i)) :=
    stC5_label_eq (by omega) (by omega)
  have e2 : stC5.label (1 + 1 * j) = some (labelC5 (1 + 1 * j)) :=
    stC5_label_eq (by omega) (by omega)
  rw [e1, e2]
  show strLtB (labelC5 (1 + 1 * i)) (labelC5 (1 + 1 * j)) = true
  exact labelC5_lt (by omega) (by omega) (by omega)

theorem V1C5 : List.insertionSort (noteKeyLe (fun n => (stC5.label n).getD []))
    (AC5 ++ 100000 :: BC5) = List.range' 1 100000 :=
  insertionSort_eq_of_strict _ SC5_perm key0_pairwise

/-- After run 1, note `n` (for `1 ≤ n ≤ 100000`) carries the five-wide
expected label for position `n`: the width-6 initial labels sort the
notes numerically, so position `k` is note `k + 1`. -/
theorem verify_unfold (env : Env) (st : St) :
    verify_and_add_deck_ids env st =
      (verifyLoop env (List.insertionSort
        (noteKeyLe (fun m => (st.label m).getD [])) env.allNotes) [] st).2 := rfl

theorem st1C5_label {n : Nat} (h1 : 1 ≤ n) (h2 : n ≤ 100000) :
    (verify_and_add_deck_ids envC5 stC5).label n =
      some (expectedLabel "D".data n) := by
  have hv := verify_unfold envC5 stC5
  have hall : envC5.allNotes = AC5 ++ 100000 :: BC5 := rfl
  rw [hv, hall, V1C5]
  obtain ⟨_, _, h1c⟩ := verifyLoop_spec envC5 (List.range' 1 100000) [] stC5
    (List.nodup_range' 1 100000)
  have hfilt : (List.range' 1 100000).filter (presentIn stC5 envC5 "D".data) =
      List.range' 1 100000 := by
    rw [List.filter_eq_self]
    intro a ha
    rw [List.mem_range'_1] at ha
    unfold presentIn
    rw [stC5_label_eq (by omega) (by omega)]
    rfl
  have hget : (List.range' 1 100000)[n - 1]? = some n := by
    rw [List.getElem?_eq_some]
    refine ⟨by rw [List.length_range']; omega, ?_⟩
    rw [List.getElem_range']
    omega
  have hl := h1c "D".data (n - 1) n (by rw [hfilt]; exact hget)
  rw [hl]
  have harith : (getCount ([] : Counters) "D".data).getD 0 + (n - 1) + 1 = n := by
    show 0 + (n - 1) + 1 = n
    omega
  rw [harith]

theorem exp_lt_100000 {i : Nat} (h1 : 1 ≤ i) (hi : i ≤ 10000) :
    strLtB (expectedLabel "D".data i) (expectedLabel "D".data 100000) = true := by
  have h5 : (10 : Nat) ^ 5 = 100000 := by norm_num
  unfold expectedLabel
  rw [show "D".data ++ '@' :: zfill 5 (pyStr i) =
      ("D".data ++ ['@']) ++ zfill 5 (pyStr i) from by simp,
    show "D".data ++ '@' :: zfill 5 (pyStr 100000) =
      ("D".data ++ ['@']) ++ zfill 5 (pyStr 100000) from by simp,
    strLtB_append_left,
    show zfill 5 (pyStr 100000) = zfill 5 (pyStr 10000) ++ ['0'] from by decide]
  by_cases h : i = 10000
  · subst h
    exact strLtB_self_append _ (by simp)
  · rw [strLtB_append_of_ne_right ['0']
      (by rw [zfill_length (pyStr_length_le (by norm_num) (by norm_num)),
        zfill_length (pyStr_length_le (by norm_num) (by rw [h5]; omega))])
      (fun he => h (zfill_pyStr_inj he).symm)]
    exact (strLtB_zfill_iff (by norm_num) (by rw [h5]; omega) (by norm_num)).mpr (by omega)

theorem lt_100000_exp {j : Nat} (h1 : 10001 ≤ j) (hj : j ≤ 99999) :
    strLtB (expectedLabel "D".data 100000) (expectedLabel "D".data j) = true := by
  have h5 : (10 : Nat) ^ 5 = 100000 := by norm_num
  unfold expectedLabel
  rw [show "D".data ++ '@' :: zfill 5 (pyStr 100000) =
      ("D".data ++ ['@']) ++ zfill 5 (pyStr 100000) from by simp,
    show "D".data ++ '@' :: zfill 5 (pyStr j) =
      ("D".data ++ ['@']) ++ zfill 5 (pyStr j) from by simp,
    strLtB_append_left,
    show zfill 5 (pyStr 100000) = zfill 5 (pyStr 10000) ++ ['0'] from by decide,
    strLtB_append_of_ne_left ['0']
      (by rw [zfill_length (pyStr_length_le (by norm_num) (by norm_num)),
        zfill_length (pyStr_length_le (by norm_num) (by rw [h5]; omega))])
      (fun he => by have h2 := zfill_pyStr_inj he; omega)]
  exact (strLtB_zfill_iff (by norm_num) (by norm_num) (by rw [h5]; omega)).mpr (by omega)

theorem exp_pairwise_range' (s n : Nat) (h1 : 1 ≤ s) (h2 : s + n ≤ 100000) :
    List.Pairwise (fun a b =>
      strLtB (expectedLabel "D".data a) (expectedLabel "D".data b) = true)
      (List.range' s n) := by
  rw [List.pairwise_iff_getElem]
  intro i j hi hj hij
  rw [List.length_range'] at hi hj
  rw [List.getElem_range', List.getElem_range']
  exact (expectedLabel_lt_iff (by omega) (by omega)).mpr (by omega)

theorem expC5_pairwise : List.Pairwise (fun a b =>
    strLtB (expectedLabel "D".data a) (expectedLabel "D".data b) = true)
    (AC5 ++ 100000 :: BC5) := by
  rw [List.pairwise_append]
  refine ⟨exp_pairwise_range' 1 10000 (by norm_num) (by norm_num), ?_, ?_⟩
  · rw [List.pairwise_cons]
    refine ⟨?_, exp_pairwise_range' 10001 89999 (by norm_num) (by norm_num)⟩
    intro b hb
    rw [show BC5 = List.range' 10001 89999 from rfl, List.mem_range'_1] at hb
    exact lt_100000_exp (by omega) (by omega)
  · intro a ha b hb
    have ha' : 1 ≤ a ∧ a ≤ 10000 := by
      rw [show AC5 = List.range' 1 10000 from rfl, List.mem_range'_1] at ha
      omega
    rcases List.mem_cons.mp hb with rfl | hb'
    · exact exp_lt_100000 ha'.1 ha'.2
    · rw [show BC5 = List.range' 10001 89999 from rfl, List.mem_range'_1] at hb'
      exact (expectedLabel_lt_iff (by omega) (by omega)).mpr (by omega)

/-- C5: the idempotence claim is false as stated.  With 100000 labeled
notes in deck `D`, run 1 relabels positions to `D@00001 … D@100000`, but
run 2's lexical sort places `D@100000` between `D@10000` and `D@10001`
(the `zfill(5)` width has overflowed), so run 2 finds the labels out of
order and performs fresh writes. -/
theorem C5_reconcile_idempotent_counterexample :
    ¬ ((verify_and_add_deck_ids envC5 (verify_and_add_deck_ids envC5 stC5)).writes =
        (verify_and_add_deck_ids envC5 stC5).writes) := by
  intro hcontra
  have hlab : ∀ n, 1 ≤ n → n ≤ 100000 →
      (verify_and_add_deck_ids envC5 stC5).label n =
        some (expectedLabel "D".data n) :=
    fun n ha hb => st1C5_label ha hb
  set st1 := verify_and_add_deck_ids envC5 stC5 with hst1
  have hkey : ∀ n ∈ AC5 ++ 100000 :: BC5,
      (st1.label n).getD [] = expectedLabel "D".data n := by
    intro n hn
    obtain ⟨ha, hb⟩ := memS_bounds hn
    rw [hlab n ha hb]
    rfl
  have hs2 : List.Pairwise (fun a b =>
      strLtB ((st1.label a).getD []) ((st1.label b).getD []) = true)
      (AC5 ++ 100000 :: BC5) :=
    List.Pairwise.imp_of_mem
      (fun ha hb hr => by rw [hkey _ ha, hkey _ hb]; exact hr) expC5_pairwise
  have hV2 : List.insertionSort (noteKeyLe (fun n => (st1.label n).getD []))
      (AC5 ++ 100000 :: BC5) = AC5 ++ 100000 :: BC5 :=
    insertionSort_eq_of_strict _ (List.Perm.refl _) hs2
  have hrun2 := verify_unfold envC5 st1
  rw [show envC5.allNotes = AC5 ++ 100000 :: BC5 from rfl, hV2] at hrun2
  have hsplit := verifyLoop_append envC5 AC5 (100000 :: BC5) [] st1
  have hfAD : AC5.filter (presentIn st1 envC5 "D".data) = AC5 := by
    rw [List.filter_eq_self]
    intro a ha
    rw [show AC5 = List.range' 1 10000 from rfl, List.mem_range'_1] at ha
    unfold presentIn
    rw [hlab a (by omega) (by omega)]
    rfl
  have hAhyp : ∀ (w : Str) (k m : Nat),
      (AC5.filter (presentIn st1 envC5 w))[k]? = some m →
      st1.label m =
        some (expectedLabel w ((getCount ([] : Counters) w).getD 0 + k + 1)) := by
    intro w k m hget
    by_cases hw : w = "D".data
    · subst hw
      rw [hfAD, show AC5 = List.range' 1 10000 from rfl] at hget
      obtain ⟨hk, hm⟩ := List.getElem?_eq_some.mp hget
      rw [List.length_range'] at hk
      rw [List.getElem_range'] at hm
      rw [hlab m (by omega) (by omega)]
      have harith : (getCount ([] : Counters) "D".data).getD 0 + k + 1 = m := by
        show 0 + k + 1 = m
        omega
      rw [harith]
    · have hfw : AC5.filter (presentIn st1 envC5 w) = [] := by
        rw [List.filter_eq_nil_iff]
        intro a _
        unfold presentIn
        intro hp
        rw [Bool.and_eq_true] at hp
        exact hw (eq_of_beq hp.2).symm
      rw [hfw] at hget
      simp at hget
  obtain ⟨hAfix, hAcnt⟩ := verifyLoop_no_writes envC5 AC5 [] st1
    (List.nodup_range' 1 10000) hAhyp
  rw [hAfix] at hsplit
  set csA := (verifyLoop envC5 AC5 [] st1).1 with hcsA
  have hcnt : (getCount csA "D".data).getD 0 = 10000 := by
    rw [hAcnt "D".data, hfAD,
      show AC5 = List.range' 1 10000 from rfl, List.length_range', getCount_nil]
    rfl
  have h100 : st1.label 100000 = some (expectedLabel "D".data 100000) :=
    hlab 100000 (by norm_num) (by norm_num)
  have hstep := verifyLoop_cons_present envC5 h100 BC5 csA
  have hcn : className envC5 100000 = "D".data := rfl
  have hne : expectedLabel "D".data 100000 ≠
      expectedLabel (className envC5 100000)
        ((getCount csA (className envC5 100000)).getD 0 + 1) := by
    rw [hcn, hcnt]
    intro he
    have h2 := expectedLabel_inj he
    omega
  rw [if_neg hne] at hstep
  obtain ⟨d, hd⟩ := verifyLoop_writes_mono envC5 BC5
    (setCount csA (className envC5 100000)
      ((getCount csA (className envC5 100000)).getD 0 + 1))
    (updateNote st1 100000 (expectedLabel (className envC5 100000)
      ((getCount csA (className envC5 100000)).getD 0 + 1)))
  have hw2 : (verify_and_add_deck_ids envC5 st1).writes =
      (st1.writes ++ [(100000, expectedLabel (className envC5 100000)
        ((getCount csA (className envC5 100000)).getD 0 + 1))]) ++ d := by
    rw [hrun2, hsplit, hstep]
    exact hd
  rw [hcontra] at hw2
  have hlen := congrArg List.length hw2
  simp only [List.length_append, List.length_singleton] at hlen
  omega
